import Mathlib

/-!
Verification of the document codec and aggregation/merge engine of pWork-OS.

The TypeScript source is shallowly embedded over `Str := List Char`:
JavaScript strings are modelled as lists of Unicode scalar values (JS indexes
strings by UTF-16 code units; the two agree on all BMP text, which covers every
literal the program manipulates).  Each embedded definition mirrors one source
function; the fixed regular expressions of the source (`^#+\s*TITLE`, `^#+\s+`,
`^#+\s+.+$`, `^[-*]\s+\[?[xX ]?\]?\s*(.+)`) are modelled by explicit matching
functions that implement the JavaScript backtracking semantics of those exact
patterns.
-/

/-- JavaScript strings, modelled as lists of characters. -/
abbrev Str := List Char

/-- Coerce a Lean string literal to the embedding. -/
def str (s : String) : Str := s.data

/-- JavaScript whitespace (the ASCII part of `\s`, which also drives
`String.prototype.trim`). -/
def isWs (c : Char) : Bool :=
  c == ' ' || c == '\t' || c == '\n' || c == '\r' || c == '\x0b' || c == '\x0c'

/-- Does `p` occur at the very start of `s`? -/
def leadMatch : Str → Str → Bool
  | [], _ => true
  | _ :: _, [] => false
  | a :: as, b :: bs => a == b && leadMatch as bs

/-- Does `sub` occur anywhere in `s` (JS `String.prototype.includes`)? -/
def occurs (sub : Str) : Str → Bool
  | [] => leadMatch sub []
  | c :: rest => leadMatch sub (c :: rest) || occurs sub rest

/-- Does `s` end with `p` (JS `String.prototype.endsWith`)? -/
def strEndsWith (p s : Str) : Bool := leadMatch p.reverse s.reverse

/-- JS `String.prototype.trim`. -/
def trim (s : Str) : Str :=
  ((s.dropWhile isWs).reverse.dropWhile isWs).reverse

/-- JS `String.prototype.split` on a single-character separator.  The result
is always non-empty; the `headD`/`tail` form keeps the equations convenient. -/
def splitCh (c : Char) : Str → List Str
  | [] => [[]]
  | a :: rest =>
    if a == c then [] :: splitCh c rest
    else (a :: (splitCh c rest).headD []) :: (splitCh c rest).tail

/-- `s.split('\n')`. -/
def splitNl (s : Str) : List Str := splitCh '\n' s

/-- JS `Array.prototype.join` on a single-character separator. -/
def joinCh (c : Char) : List Str → Str
  | [] => []
  | [l] => l
  | l :: l2 :: ls => l ++ c :: joinCh c (l2 :: ls)

/-- JS `Array.prototype.join(sep)` for a general separator. -/
def joinSep (sep : Str) : List Str → Str
  | [] => []
  | [l] => l
  | l :: l2 :: ls => l ++ sep ++ joinSep sep (l2 :: ls)

/-- Case-insensitive character comparison, as the `i` regex flag. -/
def ciEq (a b : Char) : Bool := a.toLower == b.toLower

/-- Does the literal pattern `t` occur case-insensitively at the start of `s`? -/
def ciPre : Str → Str → Bool
  | [], _ => true
  | _ :: _, [] => false
  | a :: as, b :: bs => ciEq a b && ciPre as bs

/-- Matching `\s*T` (with backtracking over the greedy `\s*`) at the start of
`s`, for the literal pattern `t`. -/
def wsStarThen (t : Str) : Str → Bool
  | [] => ciPre t []
  | c :: rest => ciPre t (c :: rest) || (isWs c && wsStarThen t rest)

/-- After at least one `#` has been consumed: match `#*\s*T` with backtracking. -/
def hashThen (t : Str) : Str → Bool
  | [] => wsStarThen t []
  | c :: rest => (c == '#' && hashThen t rest) || wsStarThen t (c :: rest)

/-- The test `line.match(new RegExp('^#+\\s*' + escapeRegex(title), 'i'))` used
by `extractSection` and `replaceSection`: at least one `#`, optional whitespace,
then the escaped (hence literal) title, case-insensitively.  Backtracking over
the greedy `#+` and `\s*` is modelled faithfully. -/
def openMatch (t : Str) : Str → Bool
  | '#' :: rest => hashThen t rest
  | _ => false

/-- Helper for `headClose`: skip the `#` run, then require one whitespace. -/
def hcAfter : Str → Bool
  | [] => false
  | c :: rest => if c == '#' then hcAfter rest else isWs c

/-- The test `line.match(/^#+\s+/)` that closes a section. -/
def headClose : Str → Bool
  | '#' :: rest => hcAfter rest
  | _ => false

/-- Helper for `headLineFull`: skip the `#` run; the remainder must start with
whitespace and have length at least two (`\s+.+` with backtracking). -/
def hlAfter : Str → Bool
  | [] => false
  | c :: rest => if c == '#' then hlAfter rest else (isWs c && !rest.isEmpty)

/-- A whole line matching `/^#+\s+.+$/` (the heading lines that
`generateExcerpt` erases). -/
def headLineFull : Str → Bool
  | '#' :: rest => hlAfter rest
  | _ => false

/-- The scanning loop of `extractSection`: `inS` is the `inSection` flag;
a line matching the opening pattern (re)enters the section and is skipped,
a heading line of any level ends the section, and all other lines inside the
section are collected. -/
def esLoop (t : Str) : List Str → Bool → List Str
  | [], _ => []
  | l :: ls, inS =>
    if openMatch t l then esLoop t ls true
    else if inS && headClose l then []
    else if inS then l :: esLoop t ls true
    else esLoop t ls false

/-- `extractSection(content, sectionTitle)` from `src/core/aggregator`. -/
def extractSection (content sectionTitle : Str) : Str :=
  trim (joinCh '\n' (esLoop sectionTitle (splitNl content) false))

/-- The item test `line.match(/^[-*]\s+\[?[xX ]?\]?\s*(.+)/)` of
`extractListItems`, modelled with the JavaScript backtracking order.
`wsStarCap` handles `\s*(.+)` (greedy `\s*`, then the capture needs at least
one character, `.` matching any character of the newline-free line). -/
def wsStarCap (s : Str) : Option Str :=
  let r := s.dropWhile isWs
  if !r.isEmpty then some r
  else
    match s.reverse with
    | [] => none
    | c :: _ => some [c]

/-- `\]?\s*(.+)`: try consuming a `]` first, then backtrack. -/
def brkClose : Str → Option Str
  | ']' :: rest => (wsStarCap rest).orElse (fun _ => wsStarCap (']' :: rest))
  | s => wsStarCap s

/-- `[xX ]?\]?\s*(.+)`: try consuming one of `x`, `X`, a space, then backtrack. -/
def boxChar : Str → Option Str
  | c :: rest =>
    if c == 'x' || c == 'X' || c == ' ' then
      (brkClose rest).orElse (fun _ => brkClose (c :: rest))
    else brkClose (c :: rest)
  | [] => brkClose []

/-- `\[?[xX ]?\]?\s*(.+)`: try consuming a `[` first, then backtrack. -/
def brkOpen : Str → Option Str
  | '[' :: rest => (boxChar rest).orElse (fun _ => boxChar ('[' :: rest))
  | s => boxChar s

/-- `\s+` (greedy, with give-back) followed by the rest of the item pattern. -/
def wsMore : Str → Option Str
  | [] => brkOpen []
  | c :: rest =>
    if isWs c then (wsMore rest).orElse (fun _ => brkOpen (c :: rest))
    else brkOpen (c :: rest)

/-- The full item pattern `^[-*]\s+\[?[xX ]?\]?\s*(.+)`; returns capture 1. -/
def itemMatch : Str → Option Str
  | c :: rest =>
    if c == '-' || c == '*' then
      match rest with
      | [] => none
      | d :: rest2 => if isWs d then wsMore rest2 else none
    else none
  | [] => none

/-- The collection loop of `extractListItems`: push `match[1].trim()` whenever
the line matches and the trimmed capture is non-empty. -/
def eliLoop : List Str → List Str
  | [] => []
  | l :: ls =>
    match itemMatch l with
    | some cap => if trim cap ≠ [] then trim cap :: eliLoop ls else eliLoop ls
    | none => eliLoop ls

/-- `extractListItems(content, sectionTitle)` from `src/core/aggregator`. -/
def extractListItems (content sectionTitle : Str) : List Str :=
  eliLoop (splitNl (extractSection content sectionTitle))

/-- Newline-run collapsing of `generateExcerpt` (`replace(/\n{3,}/g, '\n\n')`):
`n` pending newlines are flushed as `min n 2`. -/
def collapseNlAux : Nat → Str → Str
  | n, [] => List.replicate (min n 2) '\n'
  | n, '\n' :: rest => collapseNlAux (n + 1) rest
  | n, c :: rest => List.replicate (min n 2) '\n' ++ c :: collapseNlAux 0 rest

/-- Collapse every run of three or more newlines to exactly two. -/
def collapseNl (s : Str) : Str := collapseNlAux 0 s

/-- The cleaning phase of `generateExcerpt`: erase every line matching
`/^#+\s+.+$/` (the `gm` replace empties the line but keeps its newline),
collapse newline runs, trim. -/
def excerptClean (content : Str) : Str :=
  trim (collapseNl (joinCh '\n'
    ((splitNl content).map (fun l => if headLineFull l then [] else l))))

/-- `generateExcerpt(content, maxLength)` from `src/core/aggregator`. -/
def generateExcerpt (content : Str) (maxLength : Nat) : Str :=
  let cleaned := excerptClean content
  if cleaned.length ≤ maxLength then cleaned
  else trim (cleaned.take maxLength) ++ str "..."

/-- GitHub link lists of a daily log (`GitHubLink` in `src/core/schema`). -/
structure GitHubLink where
  issues : List Str
  prs : List Str
deriving DecidableEq, Repr

/-- `DailyMeta` from `src/core/schema` (the `type` discriminator is the literal
string `daily`). -/
structure DailyMeta where
  date : Str
  type : Str
  week : Str
  projects : List Str
  tags : List Str
  weekly_highlight : Bool
  github : GitHubLink
deriving DecidableEq, Repr

/-- `DailyLog` from `src/core/schema`. -/
structure DailyLog where
  meta : DailyMeta
  content : Str
  filePath : Str
deriving DecidableEq, Repr

/-- `WeeklyMeta` from `src/core/schema`. -/
structure WeeklyMeta where
  week : Str
  type : Str
  start_date : Str
  end_date : Str
  projects : List Str
deriving DecidableEq, Repr

/-- `WeeklyReport` from `src/core/schema`. -/
structure WeeklyReport where
  meta : WeeklyMeta
  content : Str
  filePath : Str
deriving DecidableEq, Repr

/-- `HighlightEntry` from `src/core/aggregator`. -/
structure HighlightEntry where
  date : Str
  content : Str
deriving DecidableEq, Repr

/-- `DailySummary` from `src/core/aggregator`. -/
structure DailySummary where
  date : Str
  projects : List Str
  tags : List Str
  isHighlight : Bool
  excerpt : Str
deriving DecidableEq, Repr

/-- `WeeklyAggregation` from `src/core/aggregator`. -/
structure WeeklyAggregation where
  meta : WeeklyMeta
  content : Str
  projects : List Str
  highlights : List HighlightEntry
  dailySummaries : List DailySummary
deriving DecidableEq, Repr

/-- `extractHighlightContent(daily)`: the `今日完成` section, else the
`项目进展` section, else the first 500 characters of the body. -/
def extractHighlightContent (daily : DailyLog) : Str :=
  let completed := extractSection daily.content (str "今日完成")
  if completed ≠ [] then completed
  else
    let progress := extractSection daily.content (str "项目进展")
    if progress ≠ [] then progress
    else daily.content.take 500

/-- `createDailySummary(daily)` (the excerpt uses the default `maxLength`
of 200). -/
def createDailySummary (daily : DailyLog) : DailySummary :=
  { date := daily.meta.date
    projects := daily.meta.projects
    tags := daily.meta.tags
    isHighlight := daily.meta.weekly_highlight
    excerpt := generateExcerpt daily.content 200 }

/-- Strict lexicographic comparison by code point; `localeCompare` on the
ASCII date strings `YYYY-MM-DD` coincides with it. -/
def strLt : Str → Str → Bool
  | [], [] => false
  | [], _ :: _ => true
  | _ :: _, [] => false
  | x :: xs, y :: ys => if x == y then strLt xs ys else decide (x.toNat < y.toNat)

/-- Stable insertion of a daily into a date-sorted list: an element already in
the list lets `x` pass only when its date is strictly smaller, so equal dates
keep their original relative order, as JavaScript's stable `Array.sort`. -/
def insertDaily (x : DailyLog) : List DailyLog → List DailyLog
  | [] => [x]
  | y :: ys =>
    if strLt y.meta.date x.meta.date then y :: insertDaily x ys
    else x :: y :: ys

/-- `[...dailies].sort((a, b) => a.meta.date.localeCompare(b.meta.date))`:
the unique stable sort by ascending date. -/
def sortDailies : List DailyLog → List DailyLog
  | [] => []
  | x :: xs => insertDaily x (sortDailies xs)

/-- The insertion-ordered project set of `aggregateDailiesToWeekly`
(`Set` iteration order in JavaScript is insertion order). -/
def projectsUnion (ds : List DailyLog) : List Str :=
  ds.foldl
    (fun acc d =>
      d.meta.projects.foldl
        (fun acc2 p => if acc2.contains p then acc2 else acc2 ++ [p]) acc)
    []

/-- The `Highlights` block of `generateWeeklyContent`. -/
def hiChunkLines (highlights : List HighlightEntry) : List Str :=
  if highlights.isEmpty then [str "*本周暂无标记为 highlight 的日志*", []]
  else highlights.flatMap (fun h => [str "### " ++ h.date, [], h.content, []])

/-- The project-progress block of `generateWeeklyContent`. -/
def prChunkLines (projects : List Str) : List Str :=
  if projects.isEmpty then [str "*本周暂无关联项目*", []]
  else projects.flatMap (fun p =>
    [str "### " ++ p, str "- 本周进展：", str "- 当前状态：", str "- 下周计划：", []])

/-- The daily-summaries block of `generateWeeklyContent`. -/
def daChunkLines (ds : List DailySummary) : List Str :=
  if ds.isEmpty then [str "*本周暂无 Daily Log*", []]
  else ds.flatMap (fun s =>
    [str "### " ++ s.date ++ (if s.isHighlight then str " ⭐" else [])
       ++ (if s.projects.isEmpty then []
           else str " [" ++ joinSep (str ", ") s.projects ++ str "]"),
     [],
     (if s.excerpt ≠ [] then s.excerpt else str "*无内容*"),
     []])

/-- The title line `# Week ${weekMeta.week} 工作周报`. -/
def titleLine (weekMeta : WeeklyMeta) : Str :=
  str "# Week " ++ weekMeta.week ++ str " 工作周报"

/-- The generated summary heading. -/
def sumHLine : Str := str "## 本周总结（一句话）"

/-- The generated highlights heading. -/
def hiHLine : Str := str "## 本周重点产出（Highlights）"

/-- The generated project-progress heading. -/
def prHLine : Str := str "## 项目进展"

/-- The generated daily-summaries heading. -/
def daHLine : Str := str "## 每日工作摘要"

/-- The generated risks heading. -/
def rkHLine : Str := str "## 风险与阻塞"

/-- The generated next-week-plan heading. -/
def plHLine : Str := str "## 下周计划"

/-- The `lines` array pushed by `generateWeeklyContent`, in push order. -/
def weeklyLines (weekMeta : WeeklyMeta) (projects : List Str)
    (highlights : List HighlightEntry) (dailySummaries : List DailySummary) :
    List Str :=
  [titleLine weekMeta, []]
    ++ [sumHLine, [], []]
    ++ [hiHLine, []] ++ hiChunkLines highlights
    ++ [prHLine, []] ++ prChunkLines projects
    ++ [daHLine, []] ++ daChunkLines dailySummaries
    ++ [rkHLine, str "-", [], plHLine, str "-", []]

/-- `generateWeeklyContent(weekMeta, projects, highlights, dailySummaries)`. -/
def generateWeeklyContent (weekMeta : WeeklyMeta) (projects : List Str)
    (highlights : List HighlightEntry) (dailySummaries : List DailySummary) :
    Str :=
  joinCh '\n' (weeklyLines weekMeta projects highlights dailySummaries)

/-- `aggregateDailiesToWeekly(dailies, weekMeta)` from `src/core/aggregator`. -/
def aggregateDailiesToWeekly (dailies : List DailyLog) (weekMeta : WeeklyMeta) :
    WeeklyAggregation :=
  let sortedDailies := sortDailies dailies
  let projects := projectsUnion sortedDailies
  let highlights :=
    (sortedDailies.filter (fun d => d.meta.weekly_highlight)).map
      (fun d => { date := d.meta.date, content := extractHighlightContent d })
  let dailySummaries := sortedDailies.map createDailySummary
  { meta := { weekMeta with projects := projects }
    content := generateWeeklyContent weekMeta projects highlights dailySummaries
    projects := projects
    highlights := highlights
    dailySummaries := dailySummaries }

/-- The stateful reading of `aggregateDailiesToWeekly`: the only mutating
operation in the source is `Array.prototype.sort`, and it is applied to the
fresh copy `[...dailies]`, so the post-call contents of the caller's array are
returned unchanged alongside the result. -/
def aggregateDailiesToWeeklyImp (dailies : List DailyLog)
    (weekMeta : WeeklyMeta) : WeeklyAggregation × List DailyLog :=
  (aggregateDailiesToWeekly dailies weekMeta, dailies)

/-- The replacement loop of `replaceSection`: a line matching the opening
pattern emits the heading, a blank line and the new interior (each time it is
seen); a heading of any level ends skipping; skipped are the old interior
lines. -/
def rsLoop (t newContent : Str) : List Str → Bool → List Str
  | [], _ => []
  | l :: ls, inS =>
    if openMatch t l then l :: [] :: newContent :: rsLoop t newContent ls true
    else if inS && headClose l then l :: rsLoop t newContent ls false
    else if inS then rsLoop t newContent ls true
    else l :: rsLoop t newContent ls false

/-- `replaceSection(content, sectionTitle, newSectionContent)`. -/
def replaceSection (content sectionTitle newSectionContent : Str) : Str :=
  joinCh '\n' (rsLoop sectionTitle newSectionContent (splitNl content) false)

/-- `mergeWeeklyContent(existingContent, newAggregation)` from
`src/core/aggregator`. -/
def mergeWeeklyContent (existingContent : Str)
    (newAggregation : WeeklyAggregation) : Str :=
  if trim existingContent = [] then newAggregation.content
  else
    let userSummary := extractSection existingContent (str "本周总结")
    let userRisks := extractSection existingContent (str "风险与阻塞")
    let userPlan := extractSection existingContent (str "下周计划")
    let c1 :=
      if userSummary ≠ [] then
        replaceSection newAggregation.content (str "本周总结（一句话）") userSummary
      else newAggregation.content
    let c2 :=
      if userRisks ≠ [] ∧ userRisks ≠ str "-" then
        replaceSection c1 (str "风险与阻塞") userRisks
      else c1
    let c3 :=
      if userPlan ≠ [] ∧ userPlan ≠ str "-" then
        replaceSection c2 (str "下周计划") userPlan
      else c2
    c3

/-- The pure core of the `existing`-report branch of `generateWeekly`
(`src/weekly/index.ts`): the persisted metadata is spread unchanged except for
`projects`, and the body is the merge of the existing body with the fresh
aggregation. -/
def generateWeeklyFromExisting (existing : WeeklyReport)
    (aggregation : WeeklyAggregation) : WeeklyReport :=
  { meta := { existing.meta with projects := aggregation.projects }
    content := mergeWeeklyContent existing.content aggregation
    filePath := existing.filePath }

/-! ## Basic lemmas about the string toolbox -/

theorem splitCh_ne_nil (c : Char) (s : Str) : splitCh c s ≠ [] := by
  cases s with
  | nil => simp [splitCh]
  | cons a rest => simp only [splitCh]; split <;> simp

theorem splitCh_exists_cons (c : Char) (s : Str) :
    ∃ l ls, splitCh c s = l :: ls := by
  cases h : splitCh c s with
  | nil => exact absurd h (splitCh_ne_nil c s)
  | cons l ls => exact ⟨l, ls, rfl⟩

theorem splitCh_append_cons (c : Char) (a b : Str) :
    splitCh c (a ++ c :: b) = splitCh c a ++ splitCh c b := by
  induction a with
  | nil => simp [splitCh]
  | cons x xs ih =>
    obtain ⟨l, ls, hds⟩ := splitCh_exists_cons c xs
    cases hx : x == c with
    | true => simp [splitCh, hx, ih]
    | false => simp [splitCh, hx, ih, hds]

theorem splitCh_joinCh (c : Char) (l : Str) (ls : List Str) :
    splitCh c (joinCh c (l :: ls)) = (l :: ls).flatMap (splitCh c) := by
  induction ls generalizing l with
  | nil => simp [joinCh]
  | cons l2 ls2 ih => simp [joinCh, splitCh_append_cons, ih]

theorem joinCh_splitCh (c : Char) (s : Str) : joinCh c (splitCh c s) = s := by
  induction s with
  | nil => simp [splitCh, joinCh]
  | cons a rest ih =>
    obtain ⟨l, ls, hds⟩ := splitCh_exists_cons c rest
    rw [hds] at ih
    cases ha : a == c with
    | true =>
      have hac : a = c := by simpa using ha
      subst hac
      simp [splitCh, hds, joinCh, ih]
    | false =>
      cases ls with
      | nil => simp [splitCh, ha, hds, joinCh] at ih ⊢; simpa using ih
      | cons l2 ls2 =>
        simp only [splitCh, ha, hds, joinCh] at ih ⊢
        simp [ih]

theorem dropWhile_concat_ne_nil {p : Char → Bool} {c : Char} (hc : p c = false) :
    ∀ xs : Str, List.dropWhile p (xs ++ [c]) ≠ [] := by
  intro xs
  induction xs with
  | nil => simp [List.dropWhile, hc]
  | cons x t ih =>
    cases hx : p x with
    | true => simpa [List.dropWhile_cons, hx] using ih
    | false => simp [List.dropWhile_cons, hx]

theorem trim_cons_ne_nil {c : Char} (hc : isWs c = false) (s : Str) :
    trim (c :: s) ≠ [] := by
  have h1 : List.dropWhile isWs (c :: s) = c :: s := by
    simp [List.dropWhile_cons, hc]
  simp only [trim, h1, List.reverse_cons]
  intro h
  exact dropWhile_concat_ne_nil hc s.reverse (by simpa using h)

theorem trim_length_le (s : Str) : (trim s).length ≤ s.length := by
  simp only [trim, List.length_reverse]
  calc (List.dropWhile isWs (List.dropWhile isWs s).reverse).length
      ≤ (List.dropWhile isWs s).reverse.length :=
        (List.dropWhile_suffix isWs).length_le
    _ = (List.dropWhile isWs s).length := List.length_reverse _
    _ ≤ s.length := (List.dropWhile_suffix isWs).length_le

/-! ## Lemmas about the section-scanning loop -/

theorem esLoop_skip (t : Str) (pre rest : List Str)
    (h : ∀ l ∈ pre, openMatch t l = false) :
    esLoop t (pre ++ rest) false = esLoop t rest false := by
  induction pre with
  | nil => rfl
  | cons l ls ih =>
    have hl : openMatch t l = false := h l (by simp)
    simp only [List.cons_append, esLoop, hl]
    exact ih (fun x hx => h x (by simp [hx]))

theorem esLoop_open (t l : Str) (rest : List Str) (b : Bool)
    (h : openMatch t l = true) :
    esLoop t (l :: rest) b = esLoop t rest true := by
  simp [esLoop, h]

theorem esLoop_collect (t : Str) (mid rest : List Str)
    (h : ∀ l ∈ mid, openMatch t l = false ∧ headClose l = false) :
    esLoop t (mid ++ rest) true = mid ++ esLoop t rest true := by
  induction mid with
  | nil => rfl
  | cons l ls ih =>
    obtain ⟨h1, h2⟩ := h l (by simp)
    simp only [List.cons_append, esLoop, h1, h2]
    simp only [Bool.false_eq_true, if_false, Bool.and_false]
    exact congrArg (l :: ·) (ih (fun x hx => h x (by simp [hx])))

theorem esLoop_close (t l : Str) (rest : List Str)
    (h1 : openMatch t l = false) (h2 : headClose l = true) :
    esLoop t (l :: rest) true = [] := by
  simp [esLoop, h1, h2]

theorem esLoop_nil (t : Str) (b : Bool) : esLoop t [] b = [] := rfl

/-! ## A declarative characterisation of `extractSection` -/

/-- Declarative description of the section scan: drop lines up to the first
one matching the opening pattern `^#+\s*title` (case-insensitive, the title
compared as a prefix of the heading text); if none exists the result is empty,
otherwise take the following lines up to the first heading line of any level,
dropping the lines that re-match the opening pattern, and return them joined
and trimmed. -/
def sectionOf (content t : Str) : Str :=
  match (splitNl content).dropWhile (fun l => !openMatch t l) with
  | [] => []
  | _ :: after =>
    trim (joinCh '\n'
      ((after.takeWhile (fun l => openMatch t l || !headClose l)).filter
        (fun l => !openMatch t l)))

theorem esLoop_true_eq (t : Str) (ls : List Str) :
    esLoop t ls true =
      (ls.takeWhile (fun l => openMatch t l || !headClose l)).filter
        (fun l => !openMatch t l) := by
  induction ls with
  | nil => rfl
  | cons l rest ih =>
    cases ho : openMatch t l with
    | true => simp [esLoop, ho, List.takeWhile_cons, List.filter_cons, ih]
    | false =>
      cases hc : headClose l with
      | true => simp [esLoop, ho, hc, List.takeWhile_cons]
      | false => simp [esLoop, ho, hc, List.takeWhile_cons, List.filter_cons, ih]

theorem esLoop_false_eq (t : Str) (ls : List Str) :
    esLoop t ls false =
      match ls.dropWhile (fun l => !openMatch t l) with
      | [] => []
      | _ :: after => esLoop t after true := by
  induction ls with
  | nil => rfl
  | cons l rest ih =>
    cases ho : openMatch t l with
    | true => simp [esLoop, ho, List.dropWhile_cons]
    | false => simpa [esLoop, ho, List.dropWhile_cons] using ih

theorem extractSection_eq_sectionOf (content t : Str) :
    extractSection content t = sectionOf content t := by
  rw [extractSection, sectionOf, esLoop_false_eq]
  cases h : (splitNl content).dropWhile (fun l => !openMatch t l) with
  | nil => simp [trim, joinCh]
  | cons l after => simp [esLoop_true_eq]

/-! ## Merge idempotence on freshly generated content -/

/-- `(aggregateDailiesToWeekly D w).content` is the rendering of its own
derived collections. -/
theorem aggregate_content_eq (D : List DailyLog) (w : WeeklyMeta) :
    (aggregateDailiesToWeekly D w).content =
      generateWeeklyContent w (aggregateDailiesToWeekly D w).projects
        (aggregateDailiesToWeekly D w).highlights
        (aggregateDailiesToWeekly D w).dailySummaries := rfl

/-- The data-dependent lines of a generated weekly report: the (split) title
line and the lines of the three data-driven blocks.  Every other generated
line is a fixed literal. -/
def weeklyVarLines (dailies : List DailyLog) (weekMeta : WeeklyMeta) :
    List Str :=
  splitNl (titleLine weekMeta)
    ++ (hiChunkLines (aggregateDailiesToWeekly dailies weekMeta).highlights).flatMap splitNl
    ++ (prChunkLines (aggregateDailiesToWeekly dailies weekMeta).projects).flatMap splitNl
    ++ (daChunkLines (aggregateDailiesToWeekly dailies weekMeta).dailySummaries).flatMap splitNl

/-- No data-dependent line of the generated report is mistaken by the merge
engine's `^#+\s*title` pattern for one of the three user-editable section
headings. -/
def mergeSafe (ls : List Str) : Bool :=
  ls.all (fun l => !openMatch (str "本周总结") l
    && !openMatch (str "风险与阻塞") l && !openMatch (str "下周计划") l)

theorem esLoop_segment (t : Str) (pre mid post : List Str) (h hc : Str)
    (hpre : ∀ l ∈ pre, openMatch t l = false)
    (hopen : openMatch t h = true)
    (hmid : ∀ l ∈ mid, openMatch t l = false ∧ headClose l = false)
    (hco : openMatch t hc = false) (hcc : headClose hc = true) :
    esLoop t (pre ++ h :: (mid ++ hc :: post)) false = mid := by
  rw [esLoop_skip t pre _ hpre, esLoop_open t h _ _ hopen,
    esLoop_collect t mid _ hmid, esLoop_close t hc post hco hcc,
    List.append_nil]

theorem esLoop_segment_end (t : Str) (pre mid : List Str) (h : Str)
    (hpre : ∀ l ∈ pre, openMatch t l = false)
    (hopen : openMatch t h = true)
    (hmid : ∀ l ∈ mid, openMatch t l = false ∧ headClose l = false) :
    esLoop t (pre ++ h :: mid) false = mid := by
  rw [esLoop_skip t pre _ hpre, esLoop_open t h _ _ hopen]
  have := esLoop_collect t mid [] hmid
  simpa [esLoop_nil] using this

/-- The line list of a generated weekly body, as the concatenation of the
split pushed lines. -/
theorem splitNl_weeklyContent (w : WeeklyMeta) (P : List Str)
    (H : List HighlightEntry) (S : List DailySummary) :
    splitNl (generateWeeklyContent w P H S) =
      splitNl (titleLine w) ++ [[]]
        ++ [sumHLine, [], [], hiHLine, []]
        ++ (hiChunkLines H).flatMap splitNl
        ++ [prHLine, []]
        ++ (prChunkLines P).flatMap splitNl
        ++ [daHLine, []]
        ++ (daChunkLines S).flatMap splitNl
        ++ [rkHLine, str "-", [], plHLine, str "-", []] := by
  have hc : weeklyLines w P H S =
      titleLine w :: ([[], sumHLine, [], [], hiHLine, []]
        ++ (hiChunkLines H ++ ([prHLine, []]
        ++ (prChunkLines P ++ ([daHLine, []]
        ++ (daChunkLines S
        ++ [rkHLine, str "-", [], plHLine, str "-", []])))))) := by
    simp [weeklyLines]
  rw [show splitNl = splitCh '\n' from rfl, generateWeeklyContent, hc,
    splitCh_joinCh]
  have e0 : splitCh '\n' ([] : Str) = [[]] := rfl
  have e1 : splitCh '\n' sumHLine = [sumHLine] := by decide
  have e2 : splitCh '\n' hiHLine = [hiHLine] := by decide
  have e3 : splitCh '\n' prHLine = [prHLine] := by decide
  have e4 : splitCh '\n' daHLine = [daHLine] := by decide
  have e5 : splitCh '\n' rkHLine = [rkHLine] := by decide
  have e6 : splitCh '\n' plHLine = [plHLine] := by decide
  have e7 : splitCh '\n' (str "-") = [str "-"] := by decide
  simp [splitNl, List.flatMap_append, e0, e1, e2, e3, e4, e5, e6, e7]

theorem gen_extract_summary (w : WeeklyMeta) (P : List Str)
    (H : List HighlightEntry) (S : List DailySummary)
    (hT : ∀ l ∈ splitNl (titleLine w), openMatch (str "本周总结") l = false) :
    extractSection (generateWeeklyContent w P H S) (str "本周总结") = [] := by
  have hpre : ∀ l ∈ splitNl (titleLine w) ++ [([] : Str)],
      openMatch (str "本周总结") l = false := by
    intro l hl
    rcases List.mem_append.1 hl with h1 | h1
    · exact hT l h1
    · rw [List.mem_singleton.1 h1]; decide
  have hseg := esLoop_segment (str "本周总结") (splitNl (titleLine w) ++ [[]])
      [[], []]
      ([[]] ++ (hiChunkLines H).flatMap splitNl ++ [prHLine, []]
        ++ (prChunkLines P).flatMap splitNl ++ [daHLine, []]
        ++ (daChunkLines S).flatMap splitNl
        ++ [rkHLine, str "-", [], plHLine, str "-", []])
      sumHLine hiHLine hpre (by decide) (by decide) (by decide) (by decide)
  have hshape : splitNl (titleLine w) ++ [[]]
        ++ [sumHLine, [], [], hiHLine, []]
        ++ (hiChunkLines H).flatMap splitNl
        ++ [prHLine, []]
        ++ (prChunkLines P).flatMap splitNl
        ++ [daHLine, []]
        ++ (daChunkLines S).flatMap splitNl
        ++ [rkHLine, str "-", [], plHLine, str "-", []]
      = (splitNl (titleLine w) ++ [[]]) ++ sumHLine :: ([[], []]
        ++ hiHLine :: ([[]] ++ (hiChunkLines H).flatMap splitNl ++ [prHLine, []]
        ++ (prChunkLines P).flatMap splitNl ++ [daHLine, []]
        ++ (daChunkLines S).flatMap splitNl
        ++ [rkHLine, str "-", [], plHLine, str "-", []])) := by
    simp
  simp only [extractSection]
  rw [splitNl_weeklyContent, hshape, hseg]
  decide

theorem gen_extract_risks (w : WeeklyMeta) (P : List Str)
    (H : List HighlightEntry) (S : List DailySummary)
    (hT : ∀ l ∈ splitNl (titleLine w), openMatch (str "风险与阻塞") l = false)
    (hHI : ∀ l ∈ (hiChunkLines H).flatMap splitNl,
      openMatch (str "风险与阻塞") l = false)
    (hPR : ∀ l ∈ (prChunkLines P).flatMap splitNl,
      openMatch (str "风险与阻塞") l = false)
    (hDA : ∀ l ∈ (daChunkLines S).flatMap splitNl,
      openMatch (str "风险与阻塞") l = false) :
    extractSection (generateWeeklyContent w P H S) (str "风险与阻塞") = str "-" := by
  have hpre : ∀ l ∈ splitNl (titleLine w) ++ [[]]
        ++ [sumHLine, [], [], hiHLine, []]
        ++ (hiChunkLines H).flatMap splitNl
        ++ [prHLine, []]
        ++ (prChunkLines P).flatMap splitNl
        ++ [daHLine, []]
        ++ (daChunkLines S).flatMap splitNl,
      openMatch (str "风险与阻塞") l = false := by
    intro l hl
    simp only [List.append_assoc, List.mem_append] at hl
    rcases hl with h1 | h1 | h1 | h1 | h1 | h1 | h1 | h1
    · exact hT l h1
    · exact (by decide : ∀ x ∈ [([] : Str)],
        openMatch (str "风险与阻塞") x = false) l h1
    · exact (by decide : ∀ x ∈ [sumHLine, [], [], hiHLine, []],
        openMatch (str "风险与阻塞") x = false) l h1
    · exact hHI l h1
    · exact (by decide : ∀ x ∈ [prHLine, []],
        openMatch (str "风险与阻塞") x = false) l h1
    · exact hPR l h1
    · exact (by decide : ∀ x ∈ [daHLine, []],
        openMatch (str "风险与阻塞") x = false) l h1
    · exact hDA l h1
  have hseg := esLoop_segment (str "风险与阻塞")
      (splitNl (titleLine w) ++ [[]]
        ++ [sumHLine, [], [], hiHLine, []]
        ++ (hiChunkLines H).flatMap splitNl
        ++ [prHLine, []]
        ++ (prChunkLines P).flatMap splitNl
        ++ [daHLine, []]
        ++ (daChunkLines S).flatMap splitNl)
      [str "-", []] [str "-", []] rkHLine plHLine
      hpre (by decide) (by decide) (by decide) (by decide)
  have hshape : splitNl (titleLine w) ++ [[]]
        ++ [sumHLine, [], [], hiHLine, []]
        ++ (hiChunkLines H).flatMap splitNl
        ++ [prHLine, []]
        ++ (prChunkLines P).flatMap splitNl
        ++ [daHLine, []]
        ++ (daChunkLines S).flatMap splitNl
        ++ [rkHLine, str "-", [], plHLine, str "-", []]
      = (splitNl (titleLine w) ++ [[]]
        ++ [sumHLine, [], [], hiHLine, []]
        ++ (hiChunkLines H).flatMap splitNl
        ++ [prHLine, []]
        ++ (prChunkLines P).flatMap splitNl
        ++ [daHLine, []]
        ++ (daChunkLines S).flatMap splitNl)
        ++ rkHLine :: ([str "-", []] ++ plHLine :: [str "-", []]) := by
    simp
  simp only [extractSection]
  rw [splitNl_weeklyContent, hshape, hseg]
  decide

theorem gen_extract_plan (w : WeeklyMeta) (P : List Str)
    (H : List HighlightEntry) (S : List DailySummary)
    (hT : ∀ l ∈ splitNl (titleLine w), openMatch (str "下周计划") l = false)
    (hHI : ∀ l ∈ (hiChunkLines H).flatMap splitNl,
      openMatch (str "下周计划") l = false)
    (hPR : ∀ l ∈ (prChunkLines P).flatMap splitNl,
      openMatch (str "下周计划") l = false)
    (hDA : ∀ l ∈ (daChunkLines S).flatMap splitNl,
      openMatch (str "下周计划") l = false) :
    extractSection (generateWeeklyContent w P H S) (str "下周计划") = str "-" := by
  have hpre : ∀ l ∈ splitNl (titleLine w) ++ [[]]
        ++ [sumHLine, [], [], hiHLine, []]
        ++ (hiChunkLines H).flatMap splitNl
        ++ [prHLine, []]
        ++ (prChunkLines P).flatMap splitNl
        ++ [daHLine, []]
        ++ (daChunkLines S).flatMap splitNl
        ++ [rkHLine, str "-", []],
      openMatch (str "下周计划") l = false := by
    intro l hl
    simp only [List.append_assoc, List.mem_append] at hl
    rcases hl with h1 | h1 | h1 | h1 | h1 | h1 | h1 | h1 | h1
    · exact hT l h1
    · exact (by decide : ∀ x ∈ [([] : Str)],
        openMatch (str "下周计划") x = false) l h1
    · exact (by decide : ∀ x ∈ [sumHLine, [], [], hiHLine, []],
        openMatch (str "下周计划") x = false) l h1
    · exact hHI l h1
    · exact (by decide : ∀ x ∈ [prHLine, []],
        openMatch (str "下周计划") x = false) l h1
    · exact hPR l h1
    · exact (by decide : ∀ x ∈ [daHLine, []],
        openMatch (str "下周计划") x = false) l h1
    · exact hDA l h1
    · exact (by decide : ∀ x ∈ [rkHLine, str "-", []],
        openMatch (str "下周计划") x = false) l h1
  have hseg := esLoop_segment_end (str "下周计划")
      (splitNl (titleLine w) ++ [[]]
        ++ [sumHLine, [], [], hiHLine, []]
        ++ (hiChunkLines H).flatMap splitNl
        ++ [prHLine, []]
        ++ (prChunkLines P).flatMap splitNl
        ++ [daHLine, []]
        ++ (daChunkLines S).flatMap splitNl
        ++ [rkHLine, str "-", []])
      [str "-", []] plHLine
      hpre (by decide) (by decide)
  have hshape : splitNl (titleLine w) ++ [[]]
        ++ [sumHLine, [], [], hiHLine, []]
        ++ (hiChunkLines H).flatMap splitNl
        ++ [prHLine, []]
        ++ (prChunkLines P).flatMap splitNl
        ++ [daHLine, []]
        ++ (daChunkLines S).flatMap splitNl
        ++ [rkHLine, str "-", [], plHLine, str "-", []]
      = (splitNl (titleLine w) ++ [[]]
        ++ [sumHLine, [], [], hiHLine, []]
        ++ (hiChunkLines H).flatMap splitNl
        ++ [prHLine, []]
        ++ (prChunkLines P).flatMap splitNl
        ++ [daHLine, []]
        ++ (daChunkLines S).flatMap splitNl
        ++ [rkHLine, str "-", []])
        ++ plHLine :: [str "-", []] := by
    simp
  simp only [extractSection]
  rw [splitNl_weeklyContent, hshape, hseg]
  decide

theorem forall_dropWhile_iff (p : Char → Bool) (l : Str) :
    (∀ x ∈ l.dropWhile p, p x = true) ↔ (∀ x ∈ l, p x = true) := by
  induction l with
  | nil => simp
  | cons a t ih =>
    cases ha : p a with
    | true => simp [List.dropWhile_cons, ha, ih]
    | false => simp [List.dropWhile_cons, ha]

theorem trim_eq_nil_iff (s : Str) : trim s = [] ↔ ∀ c ∈ s, isWs c = true := by
  rw [trim, List.reverse_eq_nil_iff, List.dropWhile_eq_nil_iff]
  constructor
  · intro h c hc
    have h2 : ∀ x ∈ List.dropWhile isWs s, isWs x = true := by
      intro x hx
      exact h x (List.mem_reverse.2 hx)
    exact (forall_dropWhile_iff isWs s).1 h2 c hc
  · intro h c hc
    exact h c ((List.dropWhile_sublist isWs).mem (List.mem_reverse.1 hc))

theorem mem_joinCh_head {c : Char} {sep : Char} {l : Str} (ls : List Str)
    (h : c ∈ l) : c ∈ joinCh sep (l :: ls) := by
  cases ls with
  | nil => simpa [joinCh] using h
  | cons l2 ls2 => simp [joinCh, h]

theorem gen_content_trim_ne (w : WeeklyMeta) (P : List Str)
    (H : List HighlightEntry) (S : List DailySummary) :
    ¬ trim (generateWeeklyContent w P H S) = [] := by
  intro hnil
  have hc : weeklyLines w P H S =
      titleLine w :: ([[], sumHLine, [], [], hiHLine, []]
        ++ (hiChunkLines H ++ ([prHLine, []]
        ++ (prChunkLines P ++ ([daHLine, []]
        ++ (daChunkLines S
        ++ [rkHLine, str "-", [], plHLine, str "-", []])))))) := by
    simp [weeklyLines]
  have hmem : '#' ∈ generateWeeklyContent w P H S := by
    rw [generateWeeklyContent, hc]
    exact mem_joinCh_head _ (by simp [titleLine]; left; decide)
  have := (trim_eq_nil_iff _).1 hnil '#' hmem
  simp [isWs] at this

theorem merge_of_placeholders (E : Str) (A : WeeklyAggregation)
    (h0 : ¬ trim E = [])
    (h1 : extractSection E (str "本周总结") = [])
    (h2 : extractSection E (str "风险与阻塞") = str "-")
    (h3 : extractSection E (str "下周计划") = str "-") :
    mergeWeeklyContent E A = A.content := by
  simp [mergeWeeklyContent, h0, h1, h2, h3]

/-- C1 (amended): for every list of daily logs and weekly metadata, provided no
data-dependent line of the generated report (a line of the week id, of a
highlight content, of a project name, or of a daily summary) matches the merge
engine's `^#+\s*title` pattern for one of the three preserved sections, merging
the freshly generated content with its own aggregation is the identity, and a
second merge returns the same bytes again. -/
theorem C1_merge_idem_on_generated (D : List DailyLog) (w : WeeklyMeta)
    (hsafe : mergeSafe (weeklyVarLines D w) = true) :
    mergeWeeklyContent (aggregateDailiesToWeekly D w).content
        (aggregateDailiesToWeekly D w) =
      (aggregateDailiesToWeekly D w).content ∧
    mergeWeeklyContent
        (mergeWeeklyContent (aggregateDailiesToWeekly D w).content
          (aggregateDailiesToWeekly D w))
        (aggregateDailiesToWeekly D w) =
      mergeWeeklyContent (aggregateDailiesToWeekly D w).content
        (aggregateDailiesToWeekly D w) := by
  rw [mergeSafe, weeklyVarLines] at hsafe
  simp only [List.all_append, Bool.and_eq_true, List.all_eq_true,
    Bool.not_eq_true'] at hsafe
  obtain ⟨⟨⟨hT, hHI⟩, hPR⟩, hDA⟩ := hsafe
  have h1 := gen_extract_summary w (aggregateDailiesToWeekly D w).projects
      (aggregateDailiesToWeekly D w).highlights
      (aggregateDailiesToWeekly D w).dailySummaries
      (fun l hl => (hT l hl).1.1)
  have h2 := gen_extract_risks w (aggregateDailiesToWeekly D w).projects
      (aggregateDailiesToWeekly D w).highlights
      (aggregateDailiesToWeekly D w).dailySummaries
      (fun l hl => (hT l hl).1.2) (fun l hl => (hHI l hl).1.2)
      (fun l hl => (hPR l hl).1.2) (fun l hl => (hDA l hl).1.2)
  have h3 := gen_extract_plan w (aggregateDailiesToWeekly D w).projects
      (aggregateDailiesToWeekly D w).highlights
      (aggregateDailiesToWeekly D w).dailySummaries
      (fun l hl => (hT l hl).2) (fun l hl => (hHI l hl).2)
      (fun l hl => (hPR l hl).2) (fun l hl => (hDA l hl).2)
  have h0 := gen_content_trim_ne w (aggregateDailiesToWeekly D w).projects
      (aggregateDailiesToWeekly D w).highlights
      (aggregateDailiesToWeekly D w).dailySummaries
  have hm : mergeWeeklyContent (aggregateDailiesToWeekly D w).content
      (aggregateDailiesToWeekly D w) = (aggregateDailiesToWeekly D w).content := by
    rw [aggregate_content_eq]
    exact merge_of_placeholders _ _ h0 h1 h2 h3
  exact ⟨hm, by rw [hm]; exact hm⟩

/-! ## Further toolbox lemmas -/

theorem leadMatch_self_append (p b : Str) : leadMatch p (p ++ b) = true := by
  induction p with
  | nil => rfl
  | cons a t ih => simp [leadMatch, ih]

theorem strEndsWith_append (p x : Str) : strEndsWith p (x ++ p) = true := by
  rw [strEndsWith, List.reverse_append]
  exact leadMatch_self_append _ _

theorem occurs_append_right (sub a b : Str) (h : occurs sub b = true) :
    occurs sub (a ++ b) = true := by
  induction a with
  | nil => simpa using h
  | cons c t ih => simp [occurs, ih]

/-! ## Concrete documents used by the witnesses and counterexamples -/

/-- A benign daily log for 2026-01-12. -/
def dailyA : DailyLog :=
  { meta :=
      { date := str "2026-01-12", type := str "daily", week := str "2026-W03"
        projects := [str "proj-a"], tags := [], weekly_highlight := false
        github := { issues := [], prs := [] } }
    content := str "## 今日完成\n- 完成了功能 A"
    filePath := str "daily/2026-01-12.md" }

/-- A benign highlighted daily log for 2026-01-13. -/
def dailyB : DailyLog :=
  { meta :=
      { date := str "2026-01-13", type := str "daily", week := str "2026-W03"
        projects := [], tags := [], weekly_highlight := true
        github := { issues := [], prs := [] } }
    content := str "## 今日完成\n- 发布了版本"
    filePath := str "daily/2026-01-13.md" }

/-- The metadata of week 2026-W03. -/
def weekW3 : WeeklyMeta :=
  { week := str "2026-W03", type := str "weekly"
    start_date := str "2026-01-12", end_date := str "2026-01-18"
    projects := [] }

/-- A daily log whose body contains the line `#风险与阻塞`, which the merge
engine's `^#+\s*风险与阻塞` pattern mistakes for the risks heading. -/
def dailyBad : DailyLog :=
  { meta :=
      { date := str "2026-01-12", type := str "daily", week := str "2026-W03"
        projects := [], tags := [], weekly_highlight := false
        github := { issues := [], prs := [] } }
    content := str "#风险与阻塞\nXYZ"
    filePath := str "daily/bad.md" }

/-- C1 counterexample: with the adversarial daily log, merging the freshly
generated weekly body with its own aggregation is not the identity — the
spurious `#风险与阻塞` line inside the daily-summaries excerpt is treated as
the risks heading, its interior is taken for user text, and the splice
rewrites the body. -/
theorem C1_counterexample :
    mergeWeeklyContent (aggregateDailiesToWeekly [dailyBad] weekW3).content
        (aggregateDailiesToWeekly [dailyBad] weekW3) ≠
      (aggregateDailiesToWeekly [dailyBad] weekW3).content := by decide

/-- C1 witness: the safety condition holds for a concrete benign input and the
merge is then the identity on the generated body. -/
theorem C1_witness :
    mergeSafe (weeklyVarLines [dailyA] weekW3) = true ∧
    mergeWeeklyContent (aggregateDailiesToWeekly [dailyA] weekW3).content
        (aggregateDailiesToWeekly [dailyA] weekW3) =
      (aggregateDailiesToWeekly [dailyA] weekW3).content :=
  ⟨by decide, (C1_merge_idem_on_generated [dailyA] weekW3 (by decide)).1⟩

/-! ## C2: merge preserves user edits and incorporates new data -/

/-- The report generated from the single daily `2026-01-12`, with the Summary
section interior replaced by a user-written sentence. -/
def editedOnce : Str :=
  replaceSection (aggregateDailiesToWeekly [dailyA] weekW3).content
    (str "本周总结（一句话）") (str "这周我完成了核心功能。")

/-- The same report with the derived daily-summaries section additionally
overwritten by the user. -/
def editedTwice : Str :=
  replaceSection editedOnce (str "每日工作摘要") (str "用户乱改的派生内容")

/-- C2 counterexample: the clause "sections outside the preserved set are
always taken from the fresh aggregation" fails.  With the adversarial daily
log, the fresh daily-summaries section contains the line `XYZ`, but after
merging an edited existing body the merged output no longer contains it: the
risks splice lands on the spurious `#风险与阻塞` line inside the
daily-summaries section and overwrites derived content. -/
theorem C2_counterexample :
    occurs (str "XYZ") (aggregateDailiesToWeekly [dailyBad] weekW3).content
        = true ∧
    occurs (str "XYZ")
        (mergeWeeklyContent (str "## 风险与阻塞\n真实风险")
          (aggregateDailiesToWeekly [dailyBad] weekW3)) = false := by decide

/-- C2 (amended): the merge scenario of the spec — generate from the daily
`2026-01-12`, replace the Summary interior with a literal sentence (and also
overwrite the derived daily-summaries section), add the daily `2026-01-13`,
regenerate and merge.  The merged result keeps the edited sentence verbatim at
the Summary heading, contains `2026-01-13` and the fresh derived content, and
discards the user's edit to the derived section; the "always taken from fresh"
clause holds for such inputs but not in the presence of heading-spoofing lines
(see the counterexample). -/
theorem C2_merge_scenario :
    occurs (str "这周我完成了核心功能。")
        (mergeWeeklyContent editedTwice
          (aggregateDailiesToWeekly [dailyA, dailyB] weekW3)) = true ∧
    extractSection
        (mergeWeeklyContent editedTwice
          (aggregateDailiesToWeekly [dailyA, dailyB] weekW3))
        (str "本周总结") = str "这周我完成了核心功能。" ∧
    occurs (str "2026-01-13")
        (mergeWeeklyContent editedTwice
          (aggregateDailiesToWeekly [dailyA, dailyB] weekW3)) = true ∧
    occurs (str "### 2026-01-13 ⭐")
        (mergeWeeklyContent editedTwice
          (aggregateDailiesToWeekly [dailyA, dailyB] weekW3)) = true ∧
    occurs (str "用户乱改的派生内容")
        (mergeWeeklyContent editedTwice
          (aggregateDailiesToWeekly [dailyA, dailyB] weekW3)) = false := by
  decide

/-! ## C5: the extractSection contract -/

/-- C5 counterexample: no heading of the body has text exactly `Summary`
(after stripping the `#` run and surrounding whitespace), so the claimed
contract demands the empty string; the code matches the heading
`## Summary extra` because the title is only required to be a prefix of the
heading text, and returns its interior. -/
theorem C5_counterexample :
    extractSection (str "## Summary extra\nhello") (str "Summary") ≠ str "" ∧
    extractSection (str "## Summary extra\nhello") (str "Summary")
      = str "hello" := by decide

/-- C5 (amended): `extractSection` is the following declarative scan: the
first line matching `^#+\s*title` (case-insensitively, the title being only a
prefix of the heading text, at any heading level) opens the section; the
section closes at the next line matching `^#+\s+` (so a `#` run must be
followed by whitespace to close); interior lines that themselves re-match the
opening pattern are dropped; the interior is joined and trimmed, and `""` is
returned when no line matches. -/
theorem C5_extractSection_spec (content sectionTitle : Str) :
    extractSection content sectionTitle = sectionOf content sectionTitle :=
  extractSection_eq_sectionOf content sectionTitle

/-! ## C6: the excerpt bound -/

/-- C6 counterexample: for input `hi...` and `N = 200` the cleaned input has
length 5 and is returned unchanged, so the result ends with `...` although the
cleaned input did not exceed `N` — the claimed "iff" fails. -/
theorem C6_counterexample :
    generateExcerpt (str "hi...") 200 = str "hi..." ∧
    strEndsWith (str "...") (generateExcerpt (str "hi...") 200) = true ∧
    (excerptClean (str "hi...")).length ≤ 200 := by decide

/-- C6 (amended): the excerpt length is bounded by `N + 3`; a cleaned input of
length at most `N` is returned unchanged; a longer one is truncated to `N`
characters, right-trimmed, and suffixed with a literal `...` (so the result
then ends with `...`; the converse, that a `...`-suffixed result implies
truncation, does not hold — see the counterexample). -/
theorem C6_excerpt_bound (content : Str) (maxLength : Nat) :
    (generateExcerpt content maxLength).length ≤ maxLength + 3 ∧
    ((excerptClean content).length ≤ maxLength →
      generateExcerpt content maxLength = excerptClean content) ∧
    ((excerptClean content).length > maxLength →
      generateExcerpt content maxLength =
          trim ((excerptClean content).take maxLength) ++ str "..." ∧
        strEndsWith (str "...") (generateExcerpt content maxLength) = true) := by
  refine ⟨?_, ?_, ?_⟩
  · by_cases h : (excerptClean content).length ≤ maxLength
    · simp only [generateExcerpt, h, if_true]
      omega
    · simp only [generateExcerpt, h, if_false]
      have h1 := trim_length_le ((excerptClean content).take maxLength)
      have h2 : ((excerptClean content).take maxLength).length ≤ maxLength := by
        simp [List.length_take]
      simp only [List.length_append]
      have h3 : (str "...").length = 3 := by decide
      omega
  · intro h
    simp [generateExcerpt, h]
  · intro h
    have h2 : ¬ (excerptClean content).length ≤ maxLength := by omega
    refine ⟨by simp [generateExcerpt, h2], ?_⟩
    simp only [generateExcerpt, h2, if_false]
    exact strEndsWith_append _ _

/-- C6 witness: the truncation branch of the amended claim at a concrete
input. -/
theorem C6_witness :
    (excerptClean (str "abcdefgh")).length > 5 ∧
    generateExcerpt (str "abcdefgh") 5 =
      trim ((excerptClean (str "abcdefgh")).take 5) ++ str "..." :=
  ⟨by decide, ((C6_excerpt_bound (str "abcdefgh") 5).2.2 (by decide)).1⟩

/-! ## C7: empty aggregation -/

/-- C7: aggregating the empty list of dailies is total and yields empty
projects, highlights and daily summaries, and a body containing the literal
no-Daily-Logs fallback sentence. -/
theorem C7_aggregate_empty (w : WeeklyMeta) :
    (aggregateDailiesToWeekly [] w).projects = [] ∧
    (aggregateDailiesToWeekly [] w).highlights = [] ∧
    (aggregateDailiesToWeekly [] w).dailySummaries = [] ∧
    occurs (str "*本周暂无 Daily Log*")
      (aggregateDailiesToWeekly [] w).content = true := by
  refine ⟨rfl, rfl, rfl, ?_⟩
  have h2 : (aggregateDailiesToWeekly [] w).content =
      titleLine w ++ '\n' :: joinCh '\n'
        [[], sumHLine, [], [], hiHLine, [],
         str "*本周暂无标记为 highlight 的日志*", [], prHLine, [],
         str "*本周暂无关联项目*", [], daHLine, [],
         str "*本周暂无 Daily Log*", [], rkHLine, str "-", [],
         plHLine, str "-", []] := rfl
  rw [h2]
  exact occurs_append_right _ _ _ (by decide)

/-! ## C8: list item extraction -/

/-- C8 counterexample: the source regex is `^[-*]\s+\[?[xX ]?\]?\s*(.+)`, not
the claimed `^[-*]\s*(\[[ xX]\])?\s*(.+)`: on the line `- x ray` the code also
strips the bare, unbracketed `x`, yielding `ray` where the claimed pattern
captures `x ray`. -/
theorem C8_counterexample :
    extractListItems (str "## T\n- x ray") (str "T") = [str "ray"] ∧
    [str "ray"] ≠ [str "x ray"] := by decide

/-- The per-line item projection of `extractListItems` in declarative form:
the trimmed capture of the source pattern, dropped when empty. -/
def itemText (l : Str) : Option Str :=
  match itemMatch l with
  | some cap => if trim cap = [] then none else some (trim cap)
  | none => none

/-- C8 (amended): `extractListItems` yields, in document order and without
deduplication, the trimmed capture of each section line matching the source
pattern `^[-*]\s+\[?[xX ]?\]?\s*(.+)` (which treats bracketed checkbox states
` `, `x`, `X` identically, requires whitespace after the list marker, also
strips a bare unbracketed `x`/`X`/space, and drops items whose trimmed capture
is empty); on the spec's example section it returns exactly
`["Task 1", "Unchecked", "Checked"]`. -/
theorem C8_extractListItems_spec :
    (∀ body title, extractListItems body title =
      (splitNl (extractSection body title)).filterMap itemText) ∧
    extractListItems (str "## Tasks\n- Task 1\n- [ ] Unchecked\n- [x] Checked")
      (str "Tasks") = [str "Task 1", str "Unchecked", str "Checked"] := by
  constructor
  · intro body title
    rw [extractListItems]
    generalize splitNl (extractSection body title) = ls
    induction ls with
    | nil => rfl
    | cons l t ih =>
      cases h : itemMatch l with
      | none => simp [eliLoop, h, List.filterMap_cons, itemText, ih]
      | some cap =>
        by_cases hc : trim cap = [] <;>
          simp [eliLoop, h, List.filterMap_cons, itemText, hc, ih]
  · decide

/-! ## C9 and C10: frame properties -/

/-- C9: regenerating an existing weekly report keeps `week`, `type`,
`start_date`, `end_date` (and the file path) from the persisted report and
changes only the `projects` field (to the fresh aggregation's project list)
and the body (to the merge result). -/
theorem C9_generateWeekly_preserves_meta (existing : WeeklyReport)
    (aggregation : WeeklyAggregation) :
    (generateWeeklyFromExisting existing aggregation).meta.week
        = existing.meta.week ∧
    (generateWeeklyFromExisting existing aggregation).meta.type
        = existing.meta.type ∧
    (generateWeeklyFromExisting existing aggregation).meta.start_date
        = existing.meta.start_date ∧
    (generateWeeklyFromExisting existing aggregation).meta.end_date
        = existing.meta.end_date ∧
    (generateWeeklyFromExisting existing aggregation).meta.projects
        = aggregation.projects ∧
    (generateWeeklyFromExisting existing aggregation).content
        = mergeWeeklyContent existing.content aggregation ∧
    (generateWeeklyFromExisting existing aggregation).filePath
        = existing.filePath :=
  ⟨rfl, rfl, rfl, rfl, rfl, rfl, rfl⟩

/-- C10: the aggregation never mutates its input — the post-call contents of
the caller's array equal the pre-call contents (the sort operates on the
spread copy), and the returned aggregation is the pure one. -/
theorem C10_aggregate_no_mutation (dailies : List DailyLog) (w : WeeklyMeta) :
    (aggregateDailiesToWeeklyImp dailies w).2 = dailies ∧
    (aggregateDailiesToWeeklyImp dailies w).1
      = aggregateDailiesToWeekly dailies w :=
  ⟨rfl, rfl⟩

/-! ## Frontmatter codec (`src/core/parser`)

`parseFrontmatter` delegates to the gray-matter library (js-yaml, YAML 1.1)
and `serializeFrontmatter` to the `yaml` package (YAML 1.2 core schema); both
are external collaborators and are modelled here from their documented
behaviour on the value shapes the three document kinds use: scalars, lists of
scalars, and one-level nested maps.  JS `Date` values (produced by js-yaml for
plain `yyyy-MM-dd` scalars) are carried as that rendering, with the runtime
assumed to be in UTC; numbers are carried as their source text. -/

/-- Runtime scalar values of the YAML layer. -/
inductive Ysc where
  | s (v : Str)
  | b (v : Bool)
  | date (v : Str)
  | num (raw : Str)
deriving DecidableEq, Repr

/-- Values of nested-map entries: scalars or lists of scalars. -/
inductive Yfl where
  | sc (v : Ysc)
  | list (vs : List Ysc)
deriving DecidableEq, Repr

/-- Top-level frontmatter values. -/
inductive Yv where
  | sc (v : Ysc)
  | list (vs : List Ysc)
  | map (m : List (Str × Yfl))
deriving DecidableEq, Repr

/-- A frontmatter mapping, in JS-object insertion order. -/
abbrev YMap := List (Str × Yv)

/-- The js-yaml date-only timestamp pattern `^\d{4}-\d{2}-\d{2}$`. -/
def dateRegex (t : Str) : Bool :=
  match t with
  | [a, b, c, d, e, f, g, h, i, j] =>
    a.isDigit && b.isDigit && c.isDigit && d.isDigit && e == '-'
      && f.isDigit && g.isDigit && h == '-' && i.isDigit && j.isDigit
  | _ => false

/-- Strings js-yaml (YAML 1.1) resolves to `true`. -/
def trueLits : List Str :=
  [str "true", str "True", str "TRUE", str "yes", str "Yes", str "YES",
   str "on", str "On", str "ON"]

/-- Strings js-yaml (YAML 1.1) resolves to `false`. -/
def falseLits : List Str :=
  [str "false", str "False", str "FALSE", str "no", str "No", str "NO",
   str "off", str "Off", str "OFF"]

/-- Boolean literals of the YAML 1.2 core schema (the emitting side). -/
def bool12Lits : List Str :=
  [str "true", str "True", str "TRUE", str "false", str "False", str "FALSE"]

/-- Null literals of the YAML 1.2 core schema. -/
def nullLits : List Str := [str "~", str "null", str "Null", str "NULL"]

/-- Strip one leading sign. -/
def stripSign : Str → Str
  | '+' :: r => r
  | '-' :: r => r
  | s => s

/-- Non-empty digit run. -/
def decDigits (s : Str) : Bool := !s.isEmpty && s.all Char.isDigit

/-- Split at the first `e`/`E` (exponent marker). -/
def expSplit : Str → Str × Option Str
  | [] => ([], none)
  | c :: r =>
    if c == 'e' || c == 'E' then ([], some r)
    else
      match expSplit r with
      | (m, e) => (c :: m, e)

/-- A well-formed exponent part. -/
def expOk : Option Str → Bool
  | none => true
  | some e => decDigits (stripSign e)

/-- A well-formed mantissa (digits with at most one dot, one digit at least). -/
def mantOk (m : Str) : Bool :=
  match splitCh '.' m with
  | [a] => decDigits a
  | [a, b] => (decDigits a && (b.isEmpty || decDigits b))
      || (a.isEmpty && decDigits b)
  | _ => false

/-- Number forms of the YAML 1.2 core schema (what the `yaml` package must
protect by quoting). -/
def numLike12 (t : Str) : Bool :=
  let s := stripSign t
  (match s with
   | '0' :: 'x' :: r => !r.isEmpty && r.all (fun c =>
       c.isDigit || ('a' ≤ c && c ≤ 'f') || ('A' ≤ c && c ≤ 'F'))
   | '0' :: 'o' :: r => !r.isEmpty && r.all (fun c => '0' ≤ c && c ≤ '7')
   | _ => false)
  || (match expSplit s with
      | (m, e) => mantOk m && expOk e)
  || [str ".inf", str ".Inf", str ".INF",
      str ".nan", str ".NaN", str ".NAN"].contains s

/-- Number forms recognised by js-yaml (YAML 1.1: additionally underscores,
binary, sexagesimal); over-approximating here only shrinks the certified-safe
set of strings. -/
def numLike11 (t : Str) : Bool :=
  numLike12 t
  || (let s := stripSign t
      (match s with
       | '0' :: 'b' :: r => !r.isEmpty && r.all (fun c =>
           c == '0' || c == '1' || c == '_')
       | _ => false)
      || (!s.isEmpty
          && s.all (fun c => c.isDigit || c == '_' || c == '.' || c == ':')
          && s.any Char.isDigit))

/-- Characters that force quoting when they lead a plain scalar. -/
def leadSpecials : List Char :=
  ['-', '?', ':', ',', '[', ']', '\x7b', '\x7d', '#', '&', '*', '!', '|',
   '>', '%', '@', '\x60', '"', '\x27']

/-- Does the `yaml` package's plain-scalar emission have to quote `t`?
(Conservative model of the YAML 1.2 core rules; deliberately `false` on
date-like strings and on the 1.1-only `yes`/`no`/`on`/`off` literals, which
the 1.2 emitter leaves plain.) -/
def needsQuote (t : Str) : Bool :=
  (match t with
   | [] => true
   | c :: _ => isWs c || leadSpecials.contains c)
  || (match t.reverse with
      | [] => true
      | c :: _ => isWs c)
  || t.any (fun c => c == '\n' || c == '\t' || c == '\r' || c == '"'
      || c == '\\')
  || occurs (str ": ") t || occurs (str " #") t
  || bool12Lits.contains t || nullLits.contains t
  || numLike12 t

/-- JSON-style escaping used inside double-quoted scalars. -/
def escCh (c : Char) : Str :=
  if c == '\\' then ['\\', '\\']
  else if c == '"' then ['\\', '"']
  else if c == '\n' then ['\\', 'n']
  else if c == '\t' then ['\\', 't']
  else if c == '\r' then ['\\', 'r']
  else [c]

/-- Escape a scalar body. -/
def escape (s : Str) : Str := s.flatMap escCh

/-- Undo `escape`. -/
def unescape : Str → Str
  | [] => []
  | c :: rest =>
    if c == '\\' then
      match rest with
      | [] => [c]
      | d :: rest2 =>
        (if d == 'n' then '\n' else if d == 't' then '\t'
         else if d == 'r' then '\r' else d) :: unescape rest2
    else c :: unescape rest

/-- Emit one string scalar: plain when possible, double-quoted otherwise. -/
def emitScalar (t : Str) : Str :=
  if needsQuote t then '"' :: (escape t ++ ['"']) else t

/-- Emit a runtime scalar. -/
def emitSc : Ysc → Str
  | .s t => emitScalar t
  | .b true => str "true"
  | .b false => str "false"
  | .date t => t
  | .num r => r

/-- js-yaml's resolution of a plain (unquoted) scalar cell: 1.1 boolean,
date-only timestamp, number, else string. -/
def plainScalar (v : Str) : Ysc :=
  if trueLits.contains v then .b true
  else if falseLits.contains v then .b false
  else if dateRegex v then .date v
  else if numLike11 v then .num v
  else .s v

/-- js-yaml's resolution of one scalar cell. -/
def parseScalarY (v : Str) : Ysc :=
  match v with
  | [] => plainScalar []
  | c :: rest =>
    if c == '"' then .s (unescape rest.dropLast) else plainScalar (c :: rest)

/-- A string whose emitted scalar reparses as the same string. -/
def scalarSafe (t : Str) : Bool := parseScalarY (emitScalar t) == .s t

/-- A runtime scalar that survives one emit/parse cycle unchanged.  `date`
values are excluded: serializing a JS `Date` yields a full ISO timestamp, not
the original cell. -/
def scSafe : Ysc → Bool
  | .s t => scalarSafe t
  | .b _ => true
  | .date _ => false
  | .num r => parseScalarY r == Ysc.num r

/-- Keys that the emitter may write bare and the parser splits back exactly. -/
def keySafe (k : Str) : Bool :=
  !needsQuote k && !(k.any (fun c => c == ':')) && !(dateRegex k)
    && !(numLike11 k) && !(trueLits.contains k) && !(falseLits.contains k)

/-- Safety of a nested-map value. -/
def flSafe : Yfl → Bool
  | .sc v => scSafe v
  | .list vs => vs.all scSafe

/-- Safety of a top-level value. -/
def vSafe : Yv → Bool
  | .sc v => scSafe v
  | .list vs => vs.all scSafe
  | .map es => es.all (fun p => keySafe p.1 && flSafe p.2)

/-- Safety of a whole mapping: every key is plain-safe and every scalar cell
reparses as itself. -/
def mapSafe (m : YMap) : Bool := m.all (fun p => keySafe p.1 && vSafe p.2)

/-- Emit one nested-map entry (indent 2; block sequences at indent 4). -/
def emitFl (k : Str) (v : Yfl) : List Str :=
  match v with
  | .sc sc => [str "  " ++ k ++ str ": " ++ emitSc sc]
  | .list [] => [str "  " ++ k ++ str ": []"]
  | .list (v0 :: vs) =>
    (str "  " ++ k ++ str ":")
      :: (v0 :: vs).map (fun sc => str "    - " ++ emitSc sc)

/-- Emit one top-level entry. -/
def emitEntry (k : Str) (v : Yv) : List Str :=
  match v with
  | .sc sc => [k ++ str ": " ++ emitSc sc]
  | .list [] => [k ++ str ": []"]
  | .list (v0 :: vs) =>
    (k ++ str ":") :: (v0 :: vs).map (fun sc => str "  - " ++ emitSc sc)
  | .map [] => [k ++ str ": \x7b\x7d"]
  | .map (e :: es) =>
    (k ++ str ":") :: (e :: es).flatMap (fun p => emitFl p.1 p.2)

/-- The lines of `yamlStringify(meta, \x7bindent: 2, lineWidth: 0\x7d)`. -/
def emitYamlLines (m : YMap) : List Str :=
  m.flatMap (fun p => emitEntry p.1 p.2)

theorem length_dropWhile_le (p : Str → Bool) (l : List Str) :
    (l.dropWhile p).length ≤ l.length := (List.dropWhile_sublist p).length_le

/-- Strip the literal `p` from the front of `s`. -/
def stripPre (p s : Str) : Option Str :=
  if leadMatch p s then some (s.drop p.length) else none

/-- Split a line `key: value` / `key:` at the first colon that ends the key
(a colon followed by a space or the end of the line); `acc` holds the scanned
key characters in reverse. -/
def splitKeyAux (acc : Str) : Str → Option (Str × Option Str)
  | [] => none
  | c :: rest =>
    if c == ':' then
      match rest with
      | [] => some (acc.reverse, none)
      | c2 :: rest2 =>
        if c2 == ' ' then some (acc.reverse, some rest2)
        else splitKeyAux (':' :: acc) (c2 :: rest2)
    else splitKeyAux (c :: acc) rest

/-- Split a mapping line into key and optional inline value. -/
def splitKey (l : Str) : Option (Str × Option Str) := splitKeyAux [] l

/-- Parse a run of `  - value` block-sequence lines. -/
def parseItems2 : List Str → Option (List Ysc)
  | [] => some []
  | l :: rest =>
    match stripPre (str "  - ") l with
    | some v => (parseItems2 rest).map (fun t => parseScalarY v :: t)
    | none => none

/-- Parse a run of `    - value` block-sequence lines. -/
def parseItems4 : List Str → Option (List Ysc)
  | [] => some []
  | l :: rest =>
    match stripPre (str "    - ") l with
    | some v => (parseItems4 rest).map (fun t => parseScalarY v :: t)
    | none => none

/-- Parse the indented entries of a nested map. -/
def parseInner : List Str → Option (List (Str × Yfl))
  | [] => some []
  | l :: rest =>
    match stripPre (str "  ") l with
    | none => none
    | some l2 =>
      if leadMatch (str "  ") l2 then none
      else
        match splitKey l2 with
        | none => none
        | some (k, some v) =>
          (parseInner rest).map (fun t =>
            (k, if v = str "[]" then Yfl.list [] else Yfl.sc (parseScalarY v))
              :: t)
        | some (k, none) =>
          let blk := rest.takeWhile (fun x => leadMatch (str "    ") x)
          let rem := rest.dropWhile (fun x => leadMatch (str "    ") x)
          match parseItems4 blk with
          | some vs => (parseInner rem).map (fun t => (k, Yfl.list vs) :: t)
          | none => none
termination_by ls => ls.length
decreasing_by
  all_goals simp_wf
  all_goals first
    | omega
    | exact Nat.lt_succ_of_le (length_dropWhile_le _ _)

/-- Parse the top-level entries of the frontmatter block. -/
def parseTop : List Str → Option YMap
  | [] => some []
  | l :: rest =>
    if l = [] then parseTop rest
    else if leadMatch (str "  ") l then none
    else
      match splitKey l with
      | none => none
      | some (k, some v) =>
        (parseTop rest).map (fun t =>
          (k, if v = str "[]" then Yv.list []
              else if v = str "\x7b\x7d" then Yv.map []
              else Yv.sc (parseScalarY v)) :: t)
      | some (k, none) =>
        let blk := rest.takeWhile (fun x => leadMatch (str "  ") x)
        let rem := rest.dropWhile (fun x => leadMatch (str "  ") x)
        match blk with
        | [] => none
        | bl :: _ =>
          if leadMatch (str "  - ") bl then
            match parseItems2 blk with
            | some vs => (parseTop rem).map (fun t => (k, Yv.list vs) :: t)
            | none => none
          else
            match parseInner blk with
            | some es => (parseTop rem).map (fun t => (k, Yv.map es) :: t)
            | none => none
termination_by ls => ls.length
decreasing_by
  all_goals simp_wf
  all_goals first
    | omega
    | exact Nat.lt_succ_of_le (length_dropWhile_le _ _)

/-- Parse errors of `src/core/parser` (`ParseError` instances, identified by
kind and field). -/
inductive ParseErr where
  | malformedYaml
  | missingField (field : Str)
  | invalidDate
  | unknownType
deriving DecidableEq, Repr

/-- `ParseResult` of `src/core/parser`. -/
structure ParseResult where
  meta : YMap
  content : Str
  raw : Str
deriving DecidableEq, Repr

/-- Model of gray-matter's `matter(fileContent)` (LF line endings): without a
leading `---` delimiter line the input is returned whole with empty data;
otherwise the block up to the first `---` line is parsed as YAML and the
remainder is the content. -/
def matter (s : Str) : Except ParseErr (YMap × Str) :=
  if leadMatch (str "---\n") s then
    let ls := splitNl (s.drop 4)
    let pre := ls.takeWhile (fun l => !(l == str "---"))
    let post := ls.dropWhile (fun l => !(l == str "---"))
    match parseTop pre with
    | none => .error .malformedYaml
    | some m =>
      match post with
      | [] => .ok (m, [])
      | _ :: after => .ok (m, joinCh '\n' after)
  else .ok ([], s)

/-- `parseFrontmatter(fileContent)` from `src/core/parser`. -/
def parseFrontmatter (fileContent : Str) : Except ParseErr ParseResult :=
  match matter fileContent with
  | .ok (data, content) =>
    .ok { meta := data, content := trim content, raw := fileContent }
  | .error e => .error e

/-- `serializeFrontmatter(meta, content)` from `src/core/parser`:
`---\n${yamlStringify(meta).trim()}\n---\n\n${content}\n`. -/
def serializeFrontmatter (meta : YMap) (content : Str) : Str :=
  str "---\n" ++ trim (joinCh '\n' (emitYamlLines meta)) ++ str "\n---\n\n"
    ++ content ++ str "\n"

/-- Duck-typed field lookup on the parsed mapping. -/
def mget (m : YMap) (k : Str) : Option Yv :=
  match m with
  | [] => none
  | (k2, v) :: rest => if k2 == k then some v else mget rest k

/-- Duck-typed field assignment: an existing key is updated in place, a new
key is appended (JS property order). -/
def mset (m : YMap) (k : Str) (v : Yv) : YMap :=
  match m with
  | [] => [(k, v)]
  | (k2, v2) :: rest =>
    if k2 == k then (k2, v) :: rest else (k2, v2) :: mset rest k v

/-- Lookup in a nested map. -/
def fget (m : List (Str × Yfl)) (k : Str) : Option Yfl :=
  match m with
  | [] => none
  | (k2, v) :: rest => if k2 == k then some v else fget rest k

/-- Assignment in a nested map. -/
def fset (m : List (Str × Yfl)) (k : Str) (v : Yfl) : List (Str × Yfl) :=
  match m with
  | [] => [(k, v)]
  | (k2, v2) :: rest =>
    if k2 == k then (k2, v) :: rest else (k2, v2) :: fset rest k v

/-- JavaScript truthiness of an optional field value (absent, `''`, `false`
and `0` are falsy; arrays, objects and `Date`s are truthy). -/
def truthy : Option Yv → Bool
  | none => false
  | some (.sc (.s t)) => !t.isEmpty
  | some (.sc (.b b)) => b
  | some (.sc (.num r)) => !(r == str "0")
  | some (.sc (.date _)) => true
  | some (.list _) => true
  | some (.map _) => true

/-- Truthiness of a nested field value. -/
def truthyF : Option Yfl → Bool
  | none => false
  | some (.sc (.s t)) => !t.isEmpty
  | some (.sc (.b b)) => b
  | some (.sc (.num r)) => !(r == str "0")
  | some (.sc (.date _)) => true
  | some (.list _) => true

/-- `normalizeDate` from `src/core/parser`: a (valid) `Date` is formatted back
to `yyyy-MM-dd` (its carried rendering, under the UTC runtime model); a string
is reparsed and reformatted, which on the canonical `yyyy-MM-dd` strings and
on JS-unparsable strings returns the string unchanged (non-canonical but
parsable date strings are outside this model); any other value throws
`ParseError` (InvalidDate). -/
def normalizeDate : Yv → Except ParseErr Yv
  | .sc (.date t) => .ok (.sc (.s t))
  | .sc (.s t) => .ok (.sc (.s t))
  | _ => .error .invalidDate

/-- `normalizeDate` applied to a nested field value. -/
def normalizeDateF : Yfl → Except ParseErr Yfl
  | .sc (.date t) => .ok (.sc (.s t))
  | .sc (.s t) => .ok (.sc (.s t))
  | _ => .error .invalidDate

/-- `validateDailyMeta` from `src/core/parser`: requires a truthy `date` and
`type === 'daily'`, normalizes the date, and fills the documented defaults. -/
def validateDailyMeta (m : YMap) : Except ParseErr YMap :=
  if !truthy (mget m (str "date")) then .error (.missingField (str "date"))
  else if !(mget m (str "type") == some (Yv.sc (.s (str "daily")))) then
    .error (.missingField (str "type"))
  else
    match mget m (str "date") with
    | none => .error (.missingField (str "date"))
    | some dv =>
      match normalizeDate dv with
      | .error e => .error e
      | .ok dv2 =>
        let m1 := mset m (str "date") dv2
        let m2 := mset m1 (str "week")
          (if truthy (mget m1 (str "week")) then
            (mget m1 (str "week")).getD (Yv.sc (.s []))
          else Yv.sc (.s []))
        let m3 := mset m2 (str "projects")
          (if truthy (mget m2 (str "projects")) then
            (mget m2 (str "projects")).getD (Yv.list [])
          else Yv.list [])
        let m4 := mset m3 (str "tags")
          (if truthy (mget m3 (str "tags")) then
            (mget m3 (str "tags")).getD (Yv.list [])
          else Yv.list [])
        let m5 :=
          match mget m4 (str "weekly_highlight") with
          | none => mset m4 (str "weekly_highlight") (Yv.sc (.b false))
          | some _ => m4
        let m6 := mset m5 (str "github")
          (if truthy (mget m5 (str "github")) then
            (mget m5 (str "github")).getD (Yv.map [])
          else Yv.map [(str "issues", Yfl.list []), (str "prs", Yfl.list [])])
        .ok m6

/-- `validateWeeklyMeta` from `src/core/parser`. -/
def validateWeeklyMeta (m : YMap) : Except ParseErr YMap :=
  if !truthy (mget m (str "week")) then .error (.missingField (str "week"))
  else if !(mget m (str "type") == some (Yv.sc (.s (str "weekly")))) then
    .error (.missingField (str "type"))
  else
    match
      (if truthy (mget m (str "start_date")) then
        normalizeDate ((mget m (str "start_date")).getD (Yv.sc (.s [])))
      else .ok (Yv.sc (.s []))) with
    | .error e => .error e
    | .ok sd =>
      let m1 := mset m (str "start_date") sd
      match
        (if truthy (mget m1 (str "end_date")) then
          normalizeDate ((mget m1 (str "end_date")).getD (Yv.sc (.s [])))
        else .ok (Yv.sc (.s []))) with
      | .error e => .error e
      | .ok ed =>
        let m2 := mset m1 (str "end_date") ed
        let m3 := mset m2 (str "projects")
          (if truthy (mget m2 (str "projects")) then
            (mget m2 (str "projects")).getD (Yv.list [])
          else Yv.list [])
        .ok m3

/-- `validateProjectMeta` from `src/core/parser`; `today` is the formatted
current date used as the `start_date` default. -/
def validateProjectMeta (today : Str) (m : YMap) : Except ParseErr YMap :=
  if !truthy (mget m (str "project")) then
    .error (.missingField (str "project"))
  else
    match mget m (str "project") with
    | some (Yv.map pm) =>
      if !truthyF (fget pm (str "name")) then
        .error (.missingField (str "project.name"))
      else if !truthyF (fget pm (str "github_repo")) then
        .error (.missingField (str "project.github_repo"))
      else
        let pm1 := fset pm (str "type")
          (if truthyF (fget pm (str "type")) then
            (fget pm (str "type")).getD (Yfl.sc (.s []))
          else Yfl.sc (.s (str "software")))
        let pm2 := fset pm1 (str "status")
          (if truthyF (fget pm1 (str "status")) then
            (fget pm1 (str "status")).getD (Yfl.sc (.s []))
          else Yfl.sc (.s (str "Planning")))
        match
          (if truthyF (fget pm2 (str "start_date")) then
            normalizeDateF ((fget pm2 (str "start_date")).getD (Yfl.sc (.s [])))
          else .ok (Yfl.sc (.s today))) with
        | .error e => .error e
        | .ok sd =>
          let pm3 := fset pm2 (str "start_date") sd
          match fget pm3 (str "end_date") with
          | some ev =>
            if truthyF (some ev) then
              match normalizeDateF ev with
              | .error e => .error e
              | .ok ed => .ok (mset m (str "project")
                  (Yv.map (fset pm3 (str "end_date") ed)))
            else .ok (mset m (str "project") (Yv.map pm3))
          | none => .ok (mset m (str "project") (Yv.map pm3))
    | _ => .error (.missingField (str "project.name"))

/-- `parseDaily(fileContent, ...)`: frontmatter parse followed by daily
validation; returns the (mutated) metadata and the trimmed body. -/
def parseDaily (fileContent : Str) : Except ParseErr (YMap × Str) :=
  match parseFrontmatter fileContent with
  | .error e => .error e
  | .ok r =>
    match validateDailyMeta r.meta with
    | .error e => .error e
    | .ok m => .ok (m, r.content)

/-- `parseWeekly(fileContent, ...)`. -/
def parseWeekly (fileContent : Str) : Except ParseErr (YMap × Str) :=
  match parseFrontmatter fileContent with
  | .error e => .error e
  | .ok r =>
    match validateWeeklyMeta r.meta with
    | .error e => .error e
    | .ok m => .ok (m, r.content)

/-- `parseProject(fileContent, ...)`. -/
def parseProject (today : Str) (fileContent : Str) :
    Except ParseErr (YMap × Str) :=
  match parseFrontmatter fileContent with
  | .error e => .error e
  | .ok r =>
    match validateProjectMeta today r.meta with
    | .error e => .error e
    | .ok m => .ok (m, r.content)

/-! ## Round-trip lemmas for the codec -/

set_option linter.unusedTactic false in
theorem escCh_no_nl (c : Char) : ∀ d ∈ escCh c, d ≠ '\n' := by
  intro d hd
  simp only [escCh] at hd
  split_ifs at hd with h1 h2 h3 h4 h5 <;> simp at hd <;>
    first
      | (rcases hd with rfl | rfl <;> decide)
      | (subst hd; decide)
      | (subst hd; simpa using h3)

theorem escape_no_nl (s : Str) : ∀ d ∈ escape s, d ≠ '\n' := by
  induction s with
  | nil => simp [escape]
  | cons c t ih =>
    intro d hd
    rw [escape, List.flatMap_cons] at hd
    rcases List.mem_append.1 hd with h | h
    · exact escCh_no_nl c d h
    · exact ih d h

theorem unescape_escape (s : Str) : unescape (escape s) = s := by
  induction s with
  | nil => rfl
  | cons c t ih =>
    rw [escape, List.flatMap_cons]
    rw [escape] at ih
    by_cases h1 : c = '\\'
    · subst h1; simp [escCh, unescape, ih, escape]
    · by_cases h2 : c = '"'
      · subst h2; simp [escCh, unescape, ih, escape]
      · by_cases h3 : c = '\n'
        · subst h3; simp [escCh, unescape, ih, escape]
        · by_cases h4 : c = '\t'
          · subst h4; simp [escCh, unescape, ih, escape]
          · by_cases h5 : c = '\r'
            · subst h5; simp [escCh, unescape, ih, escape]
            · have he : escCh c = [c] := by simp [escCh, h1, h2, h3, h4, h5]
              have hcc : (c == '\\') = false := by simpa using h1
              rw [he]
              rw [unescape.eq_def]
              simp [hcc, ih]

theorem parse_emit_quoted (t : Str) (h : needsQuote t = true) :
    parseScalarY (emitScalar t) = .s t := by
  rw [emitScalar, if_pos h, parseScalarY]
  simp [unescape_escape]


theorem needsQuote_head_true {c : Char} (r : Str)
    (h : isWs c = true ∨ leadSpecials.contains c = true) :
    needsQuote (c :: r) = true := by
  rcases h with h | h <;>
    simp only [needsQuote, h, Bool.true_or, Bool.or_true]

theorem needsQuote_any_true {t : Str}
    (h : t.any (fun c => c == '\n' || c == '\t' || c == '\r' || c == '"'
      || c == '\\') = true) :
    needsQuote t = true := by
  simp only [needsQuote, h, Bool.true_or, Bool.or_true]

theorem needsQuote_rev_ws {t : Str} {c : Char}
    (hr : t.reverse = c :: t.reverse.tail) (h : isWs c = true) :
    needsQuote t = true := by
  rw [needsQuote.eq_def, hr]
  simp only [h, Bool.true_or, Bool.or_true]

theorem nq_head_ws {c : Char} {r : Str} (h : needsQuote (c :: r) = false) :
    isWs c = false := by
  cases hw : isWs c with
  | false => rfl
  | true => rw [needsQuote_head_true r (Or.inl hw)] at h; exact absurd h (by simp)

theorem nq_head_special {c : Char} {r : Str} (h : needsQuote (c :: r) = false) :
    leadSpecials.contains c = false := by
  cases hw : leadSpecials.contains c with
  | false => rfl
  | true => rw [needsQuote_head_true r (Or.inr hw)] at h; exact absurd h (by simp)

theorem nq_ne_nil {t : Str} (h : needsQuote t = false) : t ≠ [] := by
  intro hnil; subst hnil; exact absurd h (by decide)

theorem nq_no_bad {t : Str} (h : needsQuote t = false) :
    ∀ c ∈ t, c ≠ '\n' ∧ c ≠ '\t' ∧ c ≠ '\r' ∧ c ≠ '"' ∧ c ≠ '\\' := by
  intro c hc
  refine ⟨?_, ?_, ?_, ?_, ?_⟩ <;>
    · intro he
      subst he
      rw [needsQuote_any_true (List.any_eq_true.2 ⟨_, hc, by decide⟩)] at h
      exact absurd h (by simp)

theorem nq_last_ws {t : Str} (h : needsQuote t = false) :
    isWs (t.reverse.headD 'x') = false := by
  cases hr : t.reverse with
  | nil =>
    have : t = [] := by simpa using congrArg List.reverse hr
    exact absurd (this ▸ h) (by decide)
  | cons c r2 =>
    cases hw : isWs c with
    | false => simp [hr, hw]
    | true =>
      have hr2 : t.reverse = c :: t.reverse.tail := by simp [hr]
      rw [needsQuote_rev_ws hr2 hw] at h
      exact absurd h (by simp)

theorem parse_emit_plain (t : Str) (h : needsQuote t = false) :
    parseScalarY (emitScalar t) = plainScalar t := by
  rw [emitScalar, if_neg (by simp [h])]
  cases t with
  | nil => rfl
  | cons c rest =>
    have hs := nq_head_special h
    have hc : (c == '"') = false := by
      cases hq : c == '"' with
      | false => rfl
      | true =>
        have : c = '"' := by simpa using hq
        subst this
        exact absurd hs (by decide)
    rw [parseScalarY, hc]
    simp

/-- Structural well-formedness of one emitted scalar cell: non-empty, free of
newlines, not whitespace-delimited, and not mistakable for an empty flow
collection. -/
def cellOk (v : Ysc) : Bool :=
  !(emitSc v).isEmpty
    && !((emitSc v).any (fun c => c == '\n'))
    && !(isWs ((emitSc v).headD 'x'))
    && !(isWs ((emitSc v).reverse.headD 'x'))
    && !(emitSc v == str "[]") && !(emitSc v == str "\x7b\x7d")

theorem cellOk_s (t : Str) : cellOk (.s t) = true := by
  show cellOk (Ysc.s t) = true
  cases hq : needsQuote t with
  | true =>
    have he : emitSc (Ysc.s t) = '"' :: (escape t ++ ['"']) := by
      simp [emitSc, emitScalar, hq]
    simp only [cellOk, he]
    simp [List.any_eq_true, List.reverse_cons, List.reverse_append, str]
    exact ⟨escape_no_nl t, by decide⟩
  | false =>
    have he : emitSc (Ysc.s t) = t := by simp [emitSc, emitScalar, hq]
    simp only [cellOk, he, Bool.and_eq_true, Bool.not_eq_true']
    obtain ⟨c, r, hcr⟩ : ∃ c r, t = c :: r := by
      cases t with
      | nil => exact absurd hq (by decide)
      | cons c r => exact ⟨c, r, rfl⟩
    refine ⟨⟨⟨⟨⟨?_, ?_⟩, ?_⟩, ?_⟩, ?_⟩, ?_⟩
    · simp [hcr]
    · rw [List.any_eq_false]
      intro x hx
      simpa using (nq_no_bad hq x hx).1
    · rw [hcr]
      simpa using nq_head_ws (hcr ▸ hq)
    · exact nq_last_ws hq
    · cases hb : t == str "[]" with
      | false => rfl
      | true =>
        have ht : t = str "[]" := by simpa using hb
        rw [ht] at hq
        exact absurd hq (by decide)
    · cases hb : t == str "\x7b\x7d" with
      | false => rfl
      | true =>
        have ht : t = str "\x7b\x7d" := by simpa using hb
        rw [ht] at hq
        exact absurd hq (by decide)

theorem cellOk_b (b : Bool) : cellOk (.b b) = true := by cases b <;> decide

theorem splitKeyAux_no_colon (k : Str) (hk : ∀ c ∈ k, c ≠ ':') :
    ∀ (acc v : Str),
      splitKeyAux acc (k ++ ':' :: ' ' :: v) = some (acc.reverse ++ k, some v) := by
  induction k with
  | nil =>
    intro acc v
    simp [splitKeyAux]
  | cons c t ih =>
    intro acc v
    have hc : (c == ':') = false := by
      simpa using hk c (by simp)
    rw [List.cons_append, splitKeyAux.eq_def]
    simp only [hc, if_false, Bool.false_eq_true]
    rw [ih (fun x hx => hk x (by simp [hx])) (c :: acc) v]
    simp

theorem splitKeyAux_colon_end (k : Str) (hk : ∀ c ∈ k, c ≠ ':') :
    ∀ acc : Str, splitKeyAux acc (k ++ [':']) = some (acc.reverse ++ k, none) := by
  induction k with
  | nil => intro acc; simp [splitKeyAux]
  | cons c t ih =>
    intro acc
    have hc : (c == ':') = false := by
      simpa using hk c (by simp)
    rw [List.cons_append, splitKeyAux.eq_def]
    simp only [hc, if_false, Bool.false_eq_true]
    rw [ih (fun x hx => hk x (by simp [hx])) (c :: acc)]
    simp

theorem splitKey_inline (k v : Str) (hk : ∀ c ∈ k, c ≠ ':') :
    splitKey (k ++ str ": " ++ v) = some (k, some v) := by
  have : k ++ str ": " ++ v = k ++ ':' :: ' ' :: v := by simp [str]
  rw [splitKey, this, splitKeyAux_no_colon k hk [] v]
  simp

theorem splitKey_block (k : Str) (hk : ∀ c ∈ k, c ≠ ':') :
    splitKey (k ++ str ":") = some (k, none) := by
  have : k ++ str ":" = k ++ [':'] := by simp [str]
  rw [splitKey, this, splitKeyAux_colon_end k hk []]
  simp

theorem stripPre_pre (p x : Str) : stripPre p (p ++ x) = some x := by
  rw [stripPre, if_pos (leadMatch_self_append p x)]
  simp

theorem takeWhile_append_all {p : Str → Bool} (xs : List Str)
    (h : ∀ x ∈ xs, p x = true) (rest : List Str) :
    List.takeWhile p (xs ++ rest) = xs ++ List.takeWhile p rest := by
  induction xs with
  | nil => rfl
  | cons x t ih =>
    rw [List.cons_append, List.takeWhile_cons, if_pos (h x (by simp)),
      ih (fun y hy => h y (by simp [hy]))]
    rfl

theorem dropWhile_append_all {p : Str → Bool} (xs : List Str)
    (h : ∀ x ∈ xs, p x = true) (rest : List Str) :
    List.dropWhile p (xs ++ rest) = List.dropWhile p rest := by
  induction xs with
  | nil => rfl
  | cons x t ih =>
    rw [List.cons_append, List.dropWhile_cons, if_pos (h x (by simp))]
    exact ih (fun y hy => h y (by simp [hy]))

theorem takeWhile_head_false {p : Str → Bool} (rest : List Str)
    (h : ∀ l, rest.head? = some l → p l = false) :
    List.takeWhile p rest = [] := by
  cases rest with
  | nil => rfl
  | cons l t => rw [List.takeWhile_cons, if_neg (by simp [h l rfl])]

theorem dropWhile_head_false {p : Str → Bool} (rest : List Str)
    (h : ∀ l, rest.head? = some l → p l = false) :
    List.dropWhile p rest = rest := by
  cases rest with
  | nil => rfl
  | cons l t => rw [List.dropWhile_cons, if_neg (by simp [h l rfl])]

theorem parseItems2_emit (vs : List Ysc) :
    parseItems2 (vs.map (fun sc => str "  - " ++ emitSc sc))
      = some (vs.map (fun sc => parseScalarY (emitSc sc))) := by
  induction vs with
  | nil => rfl
  | cons v t ih =>
    rw [List.map_cons, parseItems2, stripPre_pre, ih]
    rfl

theorem parseItems4_emit (vs : List Ysc) :
    parseItems4 (vs.map (fun sc => str "    - " ++ emitSc sc))
      = some (vs.map (fun sc => parseScalarY (emitSc sc))) := by
  induction vs with
  | nil => rfl
  | cons v t ih =>
    rw [List.map_cons, parseItems4, stripPre_pre, ih]
    rfl

/-- Structural well-formedness of a nested-map value's cells. -/
def cellsOkFl : Yfl → Bool
  | .sc v => cellOk v
  | .list vs => vs.all cellOk

/-- Structural well-formedness of a top-level value's cells (and inner keys). -/
def cellsOk : Yv → Bool
  | .sc v => cellOk v
  | .list vs => vs.all cellOk
  | .map es => es.all (fun p => keySafe p.1 && cellsOkFl p.2)

/-- Structural well-formedness of a whole mapping. -/
def mapOk (m : YMap) : Bool := m.all (fun p => keySafe p.1 && cellsOk p.2)

/-- One emit/parse cycle on a scalar cell. -/
def revalSc (v : Ysc) : Ysc := parseScalarY (emitSc v)

/-- One emit/parse cycle on a nested value. -/
def revalFl : Yfl → Yfl
  | .sc v => .sc (revalSc v)
  | .list vs => .list (vs.map revalSc)

/-- One emit/parse cycle on a top-level value. -/
def revalV : Yv → Yv
  | .sc v => .sc (revalSc v)
  | .list vs => .list (vs.map revalSc)
  | .map es => .map (es.map (fun p => (p.1, revalFl p.2)))

/-- One emit/parse cycle on a whole mapping. -/
def revalMap (m : YMap) : YMap := m.map (fun p => (p.1, revalV p.2))

theorem keySafe_nq {k : Str} (h : keySafe k = true) : needsQuote k = false := by
  simp only [keySafe, Bool.and_eq_true, Bool.not_eq_true'] at h
  exact h.1.1.1.1.1

theorem keySafe_no_colon {k : Str} (h : keySafe k = true) :
    ∀ c ∈ k, c ≠ ':' := by
  simp only [keySafe, Bool.and_eq_true, Bool.not_eq_true'] at h
  intro c hc he
  have h2 := h.1.1.1.1.2
  rw [List.any_eq_false] at h2
  have h3 : ¬ c = ':' := by simpa using h2 c hc
  exact h3 he

theorem keySafe_cons {k : Str} (h : keySafe k = true) :
    ∃ c r, k = c :: r ∧ isWs c = false ∧ leadSpecials.contains c = false := by
  have hq := keySafe_nq h
  cases k with
  | nil => exact absurd hq (by decide)
  | cons c r => exact ⟨c, r, rfl, nq_head_ws hq, nq_head_special hq⟩

theorem space_beq_false {c : Char} (h : isWs c = false) : (' ' == c) = false := by
  cases hb : (' ' == c) with
  | false => rfl
  | true =>
    have : (' ' : Char) = c := by simpa using hb
    rw [← this] at h
    exact absurd h (by decide)

theorem leadMatch_two_space {k x : Str} {c : Char} (hk : k = c :: x)
    (hc : isWs c = false) : ∀ y : Str, leadMatch (str "  ") (k ++ y) = false := by
  intro y
  rw [hk]
  show leadMatch (' ' :: ' ' :: []) (c :: (x ++ y)) = false
  simp [leadMatch, space_beq_false hc]

theorem leadMatch_four_two {k : Str} (y : Str) :
    leadMatch (str "    ") (str "  " ++ k ++ y) = leadMatch (str "  ") (k ++ y) := by
  rfl

theorem emitFl_head_four {k : Str} (v : Yfl) (hk : keySafe k = true) :
    ∀ l, (emitFl k v).head? = some l → leadMatch (str "    ") l = false := by
  obtain ⟨c, r, hcr, hws, _⟩ := keySafe_cons hk
  intro l hl
  have key : ∀ y : Str, leadMatch (str "    ") (str "  " ++ k ++ y) = false := by
    intro y
    rw [leadMatch_four_two, leadMatch_two_space hcr hws]
  cases v with
  | sc sc =>
    simp only [emitFl, List.head?_cons, Option.some.injEq] at hl
    subst hl
    have ha : str "  " ++ k ++ str ": " ++ emitSc sc
        = str "  " ++ k ++ (str ": " ++ emitSc sc) := by simp
    rw [ha, key]
  | list vs =>
    cases vs with
    | nil =>
      simp only [emitFl, List.head?_cons, Option.some.injEq] at hl
      subst hl
      have ha : str "  " ++ k ++ str ": []" = str "  " ++ k ++ str ": []" := rfl
      rw [key]
    | cons v0 t =>
      simp only [emitFl, List.head?_cons, Option.some.injEq] at hl
      subst hl
      rw [key]

theorem flatMap_emitFl_head_four (t : List (Str × Yfl))
    (ht : t.all (fun p => keySafe p.1 && cellsOkFl p.2) = true) :
    ∀ l, (t.flatMap (fun p => emitFl p.1 p.2)).head? = some l →
      leadMatch (str "    ") l = false := by
  intro l hl
  cases t with
  | nil => simp at hl
  | cons e t2 =>
    rw [List.flatMap_cons] at hl
    have hk : keySafe e.1 = true := by
      have := (List.all_eq_true.1 ht) e (by simp)
      rw [Bool.and_eq_true] at this
      exact this.1
    cases hfl : emitFl e.1 e.2 with
    | nil =>
      exact absurd hfl (by cases h2 : e.2 with
        | sc sc => simp [emitFl]
        | list vs => cases vs <;> simp [emitFl])
    | cons l0 ls =>
      rw [hfl] at hl
      simp only [List.cons_append, List.head?_cons, Option.some.injEq] at hl
      subst hl
      exact emitFl_head_four e.2 hk l0 (by rw [hfl]; rfl)


theorem splitKey_inlineR (k v : Str) (hk : ∀ c ∈ k, c ≠ ':') :
    splitKey (k ++ (str ": " ++ v)) = some (k, some v) := by
  simpa [List.append_assoc] using splitKey_inline k v hk

theorem parseInner_emit (es : List (Str × Yfl))
    (h : es.all (fun p => keySafe p.1 && cellsOkFl p.2) = true) :
    parseInner (es.flatMap (fun p => emitFl p.1 p.2))
      = some (es.map (fun p => (p.1, revalFl p.2))) := by
  induction es with
  | nil => simp [parseInner.eq_def]
  | cons e t ih =>
    have he := (List.all_eq_true.1 h) e (by simp)
    rw [Bool.and_eq_true] at he
    obtain ⟨hk, hfl⟩ := he
    have ht : t.all (fun p => keySafe p.1 && cellsOkFl p.2) = true := by
      rw [List.all_eq_true] at h ⊢
      exact fun x hx => h x (by simp [hx])
    have iht := ih ht
    obtain ⟨c, r, hcr, hws, hsp⟩ := keySafe_cons hk
    obtain ⟨k, fl⟩ := e
    simp only at hk hfl hcr iht ⊢
    rw [List.flatMap_cons]
    cases fl with
    | sc sc =>
      have hline : emitFl k (Yfl.sc sc)
          = [str "  " ++ (k ++ (str ": " ++ emitSc sc))] := by simp [emitFl]
      have hlm : leadMatch (str "  ") (k ++ (str ": " ++ emitSc sc)) = false :=
        leadMatch_two_space hcr hws _
      have hsk : splitKey (k ++ (str ": " ++ emitSc sc))
          = some (k, some (emitSc sc)) :=
        splitKey_inlineR k (emitSc sc) (keySafe_no_colon hk)
      have hcell : (emitSc sc = str "[]") = False := by
        simp only [cellsOkFl, cellOk, Bool.and_eq_true, Bool.not_eq_true'] at hfl
        exact eq_false (by simpa using hfl.1.2)
      rw [hline, List.cons_append, List.nil_append, parseInner.eq_def]
      simp only [stripPre_pre, hlm, Bool.false_eq_true, if_false, hsk, hcell,
        iht]
      rfl
    | list vs =>
      cases vs with
      | nil =>
        have hline : emitFl k (Yfl.list [])
            = [str "  " ++ (k ++ (str ": " ++ str "[]"))] := by
          simp [emitFl, str]
        have hlm : leadMatch (str "  ") (k ++ (str ": " ++ str "[]")) = false :=
          leadMatch_two_space hcr hws _
        have hsk : splitKey (k ++ (str ": " ++ str "[]"))
            = some (k, some (str "[]")) :=
          splitKey_inlineR k (str "[]") (keySafe_no_colon hk)
        rw [hline, List.cons_append, List.nil_append, parseInner.eq_def]
        simp only [stripPre_pre, hlm, Bool.false_eq_true, if_false, hsk, iht]
        simp [revalFl]
      | cons v0 t0 =>
        have hline : emitFl k (Yfl.list (v0 :: t0))
            = (str "  " ++ (k ++ str ":"))
              :: (v0 :: t0).map (fun sc => str "    - " ++ emitSc sc) := by
          simp [emitFl]
        have hlm : leadMatch (str "  ") (k ++ str ":") = false :=
          leadMatch_two_space hcr hws _
        have hsk : splitKey (k ++ str ":") = some (k, none) :=
          splitKey_block k (keySafe_no_colon hk)
        have hitems : ∀ x ∈ (v0 :: t0).map (fun sc => str "    - " ++ emitSc sc),
            leadMatch (str "    ") x = true := by
          intro x hx
          rw [List.mem_map] at hx
          obtain ⟨sc, _, hx2⟩ := hx
          subst hx2
          have : str "    - " ++ emitSc sc
              = str "    " ++ (str "- " ++ emitSc sc) := by simp [str]
          rw [this]
          exact leadMatch_self_append _ _
        have htake : List.takeWhile (fun x => leadMatch (str "    ") x)
            ((v0 :: t0).map (fun sc => str "    - " ++ emitSc sc)
              ++ t.flatMap (fun p => emitFl p.1 p.2))
            = (v0 :: t0).map (fun sc => str "    - " ++ emitSc sc) := by
          rw [takeWhile_append_all _ hitems,
            takeWhile_head_false _ (flatMap_emitFl_head_four t ht),
            List.append_nil]
        have hdrop : List.dropWhile (fun x => leadMatch (str "    ") x)
            ((v0 :: t0).map (fun sc => str "    - " ++ emitSc sc)
              ++ t.flatMap (fun p => emitFl p.1 p.2))
            = t.flatMap (fun p => emitFl p.1 p.2) := by
          rw [dropWhile_append_all _ hitems,
            dropWhile_head_false _ (flatMap_emitFl_head_four t ht)]
        rw [hline, List.cons_append, parseInner.eq_def]
        simp only [stripPre_pre, hlm, Bool.false_eq_true, if_false, hsk,
          htake, hdrop, parseItems4_emit, iht]
        rfl

theorem emitEntry_head_two {k : Str} (v : Yv) (hk : keySafe k = true) :
    ∀ l, (emitEntry k v).head? = some l → leadMatch (str "  ") l = false := by
  obtain ⟨c, r, hcr, hws, _⟩ := keySafe_cons hk
  intro l hl
  cases v with
  | sc sc =>
    simp only [emitEntry, List.head?_cons, Option.some.injEq] at hl
    subst hl
    have ha : k ++ str ": " ++ emitSc sc = k ++ (str ": " ++ emitSc sc) := by
      simp
    rw [ha, leadMatch_two_space hcr hws]
  | list vs =>
    cases vs with
    | nil =>
      simp only [emitEntry, List.head?_cons, Option.some.injEq] at hl
      subst hl
      have ha : k ++ str ": []" = k ++ str ": []" := rfl
      rw [leadMatch_two_space hcr hws]
    | cons v0 t0 =>
      simp only [emitEntry, List.head?_cons, Option.some.injEq] at hl
      subst hl
      rw [leadMatch_two_space hcr hws]
  | map es =>
    cases es with
    | nil =>
      simp only [emitEntry, List.head?_cons, Option.some.injEq] at hl
      subst hl
      rw [leadMatch_two_space hcr hws]
    | cons e t0 =>
      simp only [emitEntry, List.head?_cons, Option.some.injEq] at hl
      subst hl
      rw [leadMatch_two_space hcr hws]

theorem emitEntry_ne_nil (k : Str) (v : Yv) : emitEntry k v ≠ [] := by
  cases v with
  | sc sc => simp [emitEntry]
  | list vs => cases vs <;> simp [emitEntry]
  | map es => cases es <;> simp [emitEntry]

theorem flatMap_emitEntry_head_two (m : YMap) (hm : mapOk m = true) :
    ∀ l, (m.flatMap (fun p => emitEntry p.1 p.2)).head? = some l →
      leadMatch (str "  ") l = false := by
  intro l hl
  cases m with
  | nil => simp at hl
  | cons e t2 =>
    rw [List.flatMap_cons] at hl
    have hk : keySafe e.1 = true := by
      have h2 := (List.all_eq_true.1 hm) e (by simp)
      rw [Bool.and_eq_true] at h2
      exact h2.1
    cases hfl : emitEntry e.1 e.2 with
    | nil => exact absurd hfl (emitEntry_ne_nil e.1 e.2)
    | cons l0 ls =>
      rw [hfl] at hl
      simp only [List.cons_append, List.head?_cons, Option.some.injEq] at hl
      subst hl
      exact emitEntry_head_two e.2 hk l0 (by rw [hfl]; rfl)

theorem emitFl_all_two (k2 : Str) (fl : Yfl) :
    ∀ l ∈ emitFl k2 fl, leadMatch (str "  ") l = true := by
  intro l hl
  cases fl with
  | sc sc =>
    simp only [emitFl, List.mem_singleton] at hl
    subst hl
    have ha : str "  " ++ k2 ++ str ": " ++ emitSc sc
        = str "  " ++ (k2 ++ str ": " ++ emitSc sc) := by simp
    rw [ha]
    exact leadMatch_self_append _ _
  | list vs =>
    cases vs with
    | nil =>
      simp only [emitFl, List.mem_singleton] at hl
      subst hl
      have ha : str "  " ++ k2 ++ str ": []"
          = str "  " ++ (k2 ++ str ": []") := by simp
      rw [ha]
      exact leadMatch_self_append _ _
    | cons v0 t0 =>
      simp only [emitFl, List.mem_cons] at hl
      rcases hl with hl | hl
      · subst hl
        have ha : str "  " ++ k2 ++ str ":"
            = str "  " ++ (k2 ++ str ":") := by simp
        rw [ha]
        exact leadMatch_self_append _ _
      · rw [List.mem_map] at hl
        obtain ⟨sc, _, hx2⟩ := hl
        subst hx2
        have ha : str "    - " ++ emitSc sc
            = str "  " ++ (str "  - " ++ emitSc sc) := by simp [str]
        rw [ha]
        exact leadMatch_self_append _ _

theorem flatMap_emitFl_all_two (es : List (Str × Yfl)) :
    ∀ l ∈ es.flatMap (fun p => emitFl p.1 p.2),
      leadMatch (str "  ") l = true := by
  intro l hl
  rw [List.mem_flatMap] at hl
  obtain ⟨e, _, hl2⟩ := hl
  exact emitFl_all_two e.1 e.2 l hl2

theorem ne_of_special {c x : Char} (h : leadSpecials.contains c = false)
    (hx : leadSpecials.contains x = true) : ¬ c = x := by
  intro he
  subst he
  rw [h] at hx
  exact absurd hx (by simp)

theorem parseTop_emit (m : YMap) (hm : mapOk m = true) :
    parseTop (emitYamlLines m) = some (revalMap m) := by
  induction m with
  | nil => simp [parseTop.eq_def, emitYamlLines, revalMap]
  | cons e t ih =>
    have he := (List.all_eq_true.1 hm) e (by simp)
    rw [Bool.and_eq_true] at he
    obtain ⟨hk, hcells⟩ := he
    have ht : mapOk t = true := by
      rw [mapOk, List.all_eq_true] at hm ⊢
      exact fun x hx => hm x (by simp [hx])
    have iht := ih ht
    obtain ⟨c, r, hcr, hws, hsp⟩ := keySafe_cons hk
    obtain ⟨k, v⟩ := e
    simp only at hk hcells hcr iht ⊢
    rw [emitYamlLines, List.flatMap_cons]
    have hrest : t.flatMap (fun p => emitEntry p.1 p.2) = emitYamlLines t := rfl
    have hknil : (k ++ (str ": " ++ emitSc (Ysc.s [])) = []) = False := by
      exact eq_false (by rw [hcr]; simp)
    cases v with
    | sc sc =>
      have hnil : ((k ++ (str ": " ++ emitSc sc) : Str) = []) = False :=
        eq_false (by rw [hcr]; simp)
      have hlm : leadMatch (str "  ") (k ++ (str ": " ++ emitSc sc)) = false :=
        leadMatch_two_space hcr hws _
      have hsk : splitKey (k ++ (str ": " ++ emitSc sc))
          = some (k, some (emitSc sc)) :=
        splitKey_inlineR k (emitSc sc) (keySafe_no_colon hk)
      simp only [cellsOk, cellOk, Bool.and_eq_true, Bool.not_eq_true'] at hcells
      have hc1 : (emitSc sc = str "[]") = False :=
        eq_false (by simpa using hcells.1.2)
      have hc2 : (emitSc sc = str "\x7b\x7d") = False :=
        eq_false (by simpa using hcells.2)
      have hline : emitEntry k (Yv.sc sc)
          = [k ++ (str ": " ++ emitSc sc)] := by simp [emitEntry]
      rw [hline, List.cons_append, List.nil_append, parseTop.eq_def]
      simp only [hnil, hlm, Bool.false_eq_true, if_false, hsk, hc1, hc2,
        hrest, iht]
      rfl
    | list vs =>
      cases vs with
      | nil =>
        have hline : emitEntry k (Yv.list [])
            = [k ++ (str ": " ++ str "[]")] := by simp [emitEntry, str]
        have hnil : ((k ++ (str ": " ++ str "[]") : Str) = []) = False :=
          eq_false (by rw [hcr]; simp)
        have hlm : leadMatch (str "  ") (k ++ (str ": " ++ str "[]")) = false :=
          leadMatch_two_space hcr hws _
        have hsk : splitKey (k ++ (str ": " ++ str "[]"))
            = some (k, some (str "[]")) :=
          splitKey_inlineR k (str "[]") (keySafe_no_colon hk)
        rw [hline, List.cons_append, List.nil_append, parseTop.eq_def]
        simp only [hnil, hlm, Bool.false_eq_true, if_false, hsk, hrest, iht]
        simp [revalMap, revalV]
      | cons v0 t0 =>
        have hline : emitEntry k (Yv.list (v0 :: t0))
            = (k ++ str ":")
              :: (v0 :: t0).map (fun sc => str "  - " ++ emitSc sc) := by
          simp [emitEntry]
        have hnil : ((k ++ str ":" : Str) = []) = False :=
          eq_false (by rw [hcr]; simp)
        have hlm : leadMatch (str "  ") (k ++ str ":") = false :=
          leadMatch_two_space hcr hws _
        have hsk : splitKey (k ++ str ":") = some (k, none) :=
          splitKey_block k (keySafe_no_colon hk)
        have hitems : ∀ x ∈ (v0 :: t0).map (fun sc => str "  - " ++ emitSc sc),
            leadMatch (str "  ") x = true := by
          intro x hx
          rw [List.mem_map] at hx
          obtain ⟨sc, _, hx2⟩ := hx
          subst hx2
          have ha : str "  - " ++ emitSc sc
              = str "  " ++ (str "- " ++ emitSc sc) := by simp [str]
          rw [ha]
          exact leadMatch_self_append _ _
        have htake : List.takeWhile (fun x => leadMatch (str "  ") x)
            ((v0 :: t0).map (fun sc => str "  - " ++ emitSc sc)
              ++ t.flatMap (fun p => emitEntry p.1 p.2))
            = (v0 :: t0).map (fun sc => str "  - " ++ emitSc sc) := by
          rw [takeWhile_append_all _ hitems,
            takeWhile_head_false _ (flatMap_emitEntry_head_two t ht),
            List.append_nil]
        have hdrop : List.dropWhile (fun x => leadMatch (str "  ") x)
            ((v0 :: t0).map (fun sc => str "  - " ++ emitSc sc)
              ++ t.flatMap (fun p => emitEntry p.1 p.2))
            = t.flatMap (fun p => emitEntry p.1 p.2) := by
          rw [dropWhile_append_all _ hitems,
            dropWhile_head_false _ (flatMap_emitEntry_head_two t ht)]
        have hbl : leadMatch (str "  - ") (str "  - " ++ emitSc v0) = true := by
          exact leadMatch_self_append _ _
        have hpi : parseItems2 ((str "  - " ++ emitSc v0)
            :: t0.map (fun sc => str "  - " ++ emitSc sc))
            = some (parseScalarY (emitSc v0)
                :: t0.map (fun sc => parseScalarY (emitSc sc))) := by
          rw [parseItems2, stripPre_pre, parseItems2_emit]
          rfl
        have htake2 := htake
        have hdrop2 := hdrop
        rw [hrest] at htake2 hdrop2
        simp only [List.map_cons, List.cons_append] at htake2 hdrop2
        rw [hline, List.cons_append, parseTop.eq_def]
        simp only [hnil, hlm, Bool.false_eq_true, if_false, hsk, hrest,
          List.map_cons, List.cons_append, htake2, hdrop2, hbl, if_true,
          hpi, iht]
        simp [revalMap, revalV, revalSc]
    | map es =>
      cases es with
      | nil =>
        have hline : emitEntry k (Yv.map [])
            = [k ++ (str ": " ++ str "\x7b\x7d")] := by simp [emitEntry, str]
        have hnil : ((k ++ (str ": " ++ str "\x7b\x7d") : Str) = []) = False :=
          eq_false (by rw [hcr]; simp)
        have hlm : leadMatch (str "  ")
            (k ++ (str ": " ++ str "\x7b\x7d")) = false :=
          leadMatch_two_space hcr hws _
        have hsk : splitKey (k ++ (str ": " ++ str "\x7b\x7d"))
            = some (k, some (str "\x7b\x7d")) :=
          splitKey_inlineR k (str "\x7b\x7d") (keySafe_no_colon hk)
        have hne : ((str "\x7b\x7d" : Str) = str "[]") = False := by decide
        rw [hline, List.cons_append, List.nil_append, parseTop.eq_def]
        simp only [hnil, hlm, Bool.false_eq_true, if_false, hsk, hne, hrest,
          iht]
        simp [revalMap, revalV]
      | cons e0 t0 =>
        have hline : emitEntry k (Yv.map (e0 :: t0))
            = (k ++ str ":")
              :: (e0 :: t0).flatMap (fun p => emitFl p.1 p.2) := by
          simp [emitEntry]
        have hnil : ((k ++ str ":" : Str) = []) = False :=
          eq_false (by rw [hcr]; simp)
        have hlm : leadMatch (str "  ") (k ++ str ":") = false :=
          leadMatch_two_space hcr hws _
        have hsk : splitKey (k ++ str ":") = some (k, none) :=
          splitKey_block k (keySafe_no_colon hk)
        have htake : List.takeWhile (fun x => leadMatch (str "  ") x)
            ((e0 :: t0).flatMap (fun p => emitFl p.1 p.2)
              ++ t.flatMap (fun p => emitEntry p.1 p.2))
            = (e0 :: t0).flatMap (fun p => emitFl p.1 p.2) := by
          rw [takeWhile_append_all _ (flatMap_emitFl_all_two (e0 :: t0)),
            takeWhile_head_false _ (flatMap_emitEntry_head_two t ht),
            List.append_nil]
        have hdrop : List.dropWhile (fun x => leadMatch (str "  ") x)
            ((e0 :: t0).flatMap (fun p => emitFl p.1 p.2)
              ++ t.flatMap (fun p => emitEntry p.1 p.2))
            = t.flatMap (fun p => emitEntry p.1 p.2) := by
          rw [dropWhile_append_all _ (flatMap_emitFl_all_two (e0 :: t0)),
            dropWhile_head_false _ (flatMap_emitEntry_head_two t ht)]
        have hk0 : keySafe e0.1 = true := by
          have h2 := (List.all_eq_true.1 hcells) e0 (by simp)
          rw [Bool.and_eq_true] at h2
          exact h2.1
        obtain ⟨c0, r0, hcr0, hws0, hsp0⟩ := keySafe_cons hk0
        have hbl : ∀ bl, ((e0 :: t0).flatMap (fun p => emitFl p.1 p.2)).head?
            = some bl → leadMatch (str "  - ") bl = false := by
          intro bl hbl2
          rw [List.flatMap_cons] at hbl2
          cases hfl0 : emitFl e0.1 e0.2 with
          | nil =>
            exact absurd hfl0 (by cases h2 : e0.2 with
              | sc sc => simp [emitFl]
              | list vs => cases vs <;> simp [emitFl])
          | cons l0 ls =>
            rw [hfl0] at hbl2
            simp only [List.cons_append, List.head?_cons,
              Option.some.injEq] at hbl2
            subst hbl2
            have hshape : ∃ x, l0 = str "  " ++ (e0.1 ++ x) := by
              cases h2 : e0.2 with
              | sc sc =>
                rw [h2] at hfl0
                simp only [emitFl, List.cons.injEq] at hfl0
                exact ⟨str ": " ++ emitSc sc, by rw [← hfl0.1]; simp⟩
              | list vs =>
                cases vs with
                | nil =>
                  rw [h2] at hfl0
                  simp only [emitFl, List.cons.injEq] at hfl0
                  exact ⟨str ": []", by rw [← hfl0.1]; simp⟩
                | cons w0 w1 =>
                  rw [h2] at hfl0
                  simp only [emitFl, List.cons.injEq] at hfl0
                  exact ⟨str ":", by rw [← hfl0.1]; simp⟩
            obtain ⟨x, hx⟩ := hshape
            rw [hx, hcr0]
            show leadMatch (' ' :: ' ' :: '-' :: ' ' :: [])
              (' ' :: ' ' :: (c0 :: (r0 ++ x))) = false
            have hne : ('-' == c0) = false := by
              rw [beq_eq_false_iff_ne]
              exact fun h2 => (ne_of_special hsp0 (by decide)) h2.symm
            simp [leadMatch, hne]
        rw [hrest] at htake hdrop
        rw [hline, List.cons_append, parseTop.eq_def]
        simp only [hnil, hlm, Bool.false_eq_true, if_false, hsk, hrest, htake,
          hdrop, iht]
        cases hblk : ((e0 :: t0).flatMap (fun p => emitFl p.1 p.2)) with
        | nil =>
          exfalso
          rw [List.flatMap_cons] at hblk
          cases h2 : emitFl e0.1 e0.2 with
          | nil =>
            exact absurd h2 (by cases h3 : e0.2 with
              | sc sc => simp [emitFl]
              | list vs => cases vs <;> simp [emitFl])
          | cons l0 ls =>
            rw [h2] at hblk
            simp at hblk
        | cons bl bls =>
          have hblf := hbl bl (by rw [hblk]; rfl)
          simp only [hblf, Bool.false_eq_true, if_false]
          rw [← hblk, parseInner_emit (e0 :: t0) hcells]
          simp [revalMap, revalV]

/-! ## The emitted frontmatter text: trimming and line structure -/

theorem dropWhile_ws_cons {c : Char} (hc : isWs c = true) (x : Str) :
    List.dropWhile isWs (c :: x) = List.dropWhile isWs x := by
  rw [List.dropWhile_cons, hc]
  simp

theorem dropWhile_nws_cons {c : Char} (hc : isWs c = false) (x : Str) :
    List.dropWhile isWs (c :: x) = c :: x := by
  rw [List.dropWhile_cons, hc]
  simp

theorem trim_of_head_last {s : Str}
    (h1 : ∀ c, s.head? = some c → isWs c = false)
    (h2 : ∀ c, s.getLast? = some c → isWs c = false) : trim s = s := by
  cases s with
  | nil => rfl
  | cons a r =>
    have ha : isWs a = false := h1 a rfl
    rw [trim, dropWhile_nws_cons ha]
    cases hr : (a :: r).reverse with
    | nil => exact absurd hr (by simp)
    | cons b rb =>
      have hb : (a :: r).getLast? = some b := by
        rw [← List.head?_reverse, hr]
        rfl
      have hbw : isWs b = false := h2 b hb
      rw [dropWhile_nws_cons hbw, ← hr]
      simp

theorem trim_ws_cons {c : Char} (hc : isWs c = true) (s : Str) :
    trim (c :: s) = trim s := by
  rw [trim, trim, dropWhile_ws_cons hc]

theorem trim_append_ws {c : Char} (hc : isWs c = true) (s : Str) :
    trim (s ++ [c]) = trim s := by
  rw [trim, trim, List.dropWhile_append]
  cases hd : List.dropWhile isWs s with
  | nil =>
    simp [List.dropWhile_cons, hc]
  | cons d ds =>
    simp only [List.isEmpty_cons, Bool.false_eq_true, if_false]
    have hrev : ((d :: ds) ++ [c]).reverse = c :: (d :: ds).reverse := by
      rw [List.reverse_append]
      rfl
    rw [hrev, dropWhile_ws_cons hc]

theorem joinCh_head_ne (sep : Char) (l : Str) (ls : List Str) (h : l ≠ []) :
    (joinCh sep (l :: ls)).head? = l.head? := by
  cases ls with
  | nil => rfl
  | cons l2 ls2 =>
    rw [joinCh]
    cases l with
    | nil => exact absurd rfl h
    | cons a r => rfl

theorem joinCh_getLast (sep : Char) (ls : List Str) (l : Str)
    (hl : ls.getLast? = some l) (hne : l ≠ []) :
    (joinCh sep ls).getLast? = l.getLast? := by
  induction ls with
  | nil => simp at hl
  | cons a rest ih =>
    cases rest with
    | nil =>
      have : a = l := by simpa using hl
      subst this
      rfl
    | cons b rs =>
      have hl2 : (b :: rs).getLast? = some l := by
        rw [List.getLast?_cons_cons] at hl
        exact hl
      have ihw := ih hl2
      have hlsome : ∃ d, l.getLast? = some d := by
        cases hld : l.getLast? with
        | none => exact absurd (by simpa using hld) hne
        | some d => exact ⟨d, rfl⟩
      obtain ⟨d, hld⟩ := hlsome
      have hwne : joinCh sep (b :: rs) ≠ [] := by
        intro hz
        rw [hz] at ihw
        rw [hld] at ihw
        simp at ihw
      rw [joinCh, List.getLast?_append_of_ne_nil _ (by simp)]
      have hx : sep :: joinCh sep (b :: rs) = [sep] ++ joinCh sep (b :: rs) := rfl
      rw [hx, List.getLast?_append_of_ne_nil _ hwne, ihw]

theorem splitCh_no_sep {c : Char} {l : Str} (h : ∀ ch ∈ l, (ch == c) = false) :
    splitCh c l = [l] := by
  induction l with
  | nil => rfl
  | cons a r ih =>
    rw [splitCh, if_neg (by simp [h a (by simp)]),
      ih (fun x hx => h x (by simp [hx]))]
    rfl

theorem flatMap_splitCh_id {c : Char} {L : List Str}
    (h : ∀ l ∈ L, ∀ ch ∈ l, (ch == c) = false) :
    L.flatMap (splitCh c) = L := by
  induction L with
  | nil => rfl
  | cons l ls ih =>
    rw [List.flatMap_cons, splitCh_no_sep (h l (by simp)),
      ih (fun x hx => h x (by simp [hx]))]
    rfl

theorem cellOk_ne_nil {v : Ysc} (h : cellOk v = true) : emitSc v ≠ [] := by
  simp only [cellOk, Bool.and_eq_true, Bool.not_eq_true'] at h
  have h1 := h.1.1.1.1.1
  intro hz
  rw [hz] at h1
  exact absurd h1 (by decide)

theorem cellOk_no_nl {v : Ysc} (h : cellOk v = true) :
    ∀ ch ∈ emitSc v, (ch == '\n') = false := by
  simp only [cellOk, Bool.and_eq_true, Bool.not_eq_true'] at h
  have h2 := h.1.1.1.1.2
  rw [List.any_eq_false] at h2
  intro ch hc
  simpa using h2 ch hc

theorem cellOk_last_ws {v : Ysc} (h : cellOk v = true) :
    ∀ d, (emitSc v).getLast? = some d → isWs d = false := by
  simp only [cellOk, Bool.and_eq_true, Bool.not_eq_true'] at h
  have h2 := h.1.1.2
  intro d hd
  have hrev : (emitSc v).reverse.head? = some d := by
    rw [List.head?_reverse, hd]
  rw [List.headD_eq_head?_getD, hrev] at h2
  exact h2

theorem keySafe_no_nl {k : Str} (h : keySafe k = true) :
    ∀ ch ∈ k, (ch == '\n') = false := by
  have hq := keySafe_nq h
  intro ch hc
  simpa using (nq_no_bad hq ch hc).1

theorem append_no_nl {a b : Str} (ha : ∀ ch ∈ a, (ch == '\n') = false)
    (hb : ∀ ch ∈ b, (ch == '\n') = false) :
    ∀ ch ∈ a ++ b, (ch == '\n') = false := by
  intro ch hc
  rcases List.mem_append.1 hc with h | h
  exacts [ha ch h, hb ch h]

theorem emitFl_no_nl {k : Str} {v : Yfl} (hk : keySafe k = true)
    (hv : cellsOkFl v = true) :
    ∀ l ∈ emitFl k v, ∀ ch ∈ l, (ch == '\n') = false := by
  intro l hl
  cases v with
  | sc sc =>
    simp only [emitFl, List.mem_singleton] at hl
    subst hl
    exact append_no_nl (append_no_nl (append_no_nl (by decide)
      (keySafe_no_nl hk)) (by decide)) (cellOk_no_nl hv)
  | list vs =>
    cases vs with
    | nil =>
      simp only [emitFl, List.mem_singleton] at hl
      subst hl
      exact append_no_nl (append_no_nl (by decide) (keySafe_no_nl hk)) (by decide)
    | cons v0 t0 =>
      simp only [emitFl, List.mem_cons] at hl
      rcases hl with hl | hl
      · subst hl
        exact append_no_nl (append_no_nl (by decide) (keySafe_no_nl hk)) (by decide)
      · rw [List.mem_map] at hl
        obtain ⟨sc, hsc, rfl⟩ := hl
        have hcell : cellOk sc = true := by
          have h2 : (v0 :: t0).all cellOk = true := hv
          exact (List.all_eq_true.1 h2) sc hsc
        exact append_no_nl (by decide) (cellOk_no_nl hcell)

theorem emitEntry_no_nl {k : Str} {v : Yv} (hk : keySafe k = true)
    (hv : cellsOk v = true) :
    ∀ l ∈ emitEntry k v, ∀ ch ∈ l, (ch == '\n') = false := by
  intro l hl
  cases v with
  | sc sc =>
    simp only [emitEntry, List.mem_singleton] at hl
    subst hl
    exact append_no_nl (append_no_nl (keySafe_no_nl hk) (by decide))
      (cellOk_no_nl hv)
  | list vs =>
    cases vs with
    | nil =>
      simp only [emitEntry, List.mem_singleton] at hl
      subst hl
      exact append_no_nl (keySafe_no_nl hk) (by decide)
    | cons v0 t0 =>
      simp only [emitEntry, List.mem_cons] at hl
      rcases hl with hl | hl
      · subst hl
        exact append_no_nl (keySafe_no_nl hk) (by decide)
      · rw [List.mem_map] at hl
        obtain ⟨sc, hsc, rfl⟩ := hl
        have hcell : cellOk sc = true := by
          have h2 : (v0 :: t0).all cellOk = true := hv
          exact (List.all_eq_true.1 h2) sc hsc
        exact append_no_nl (by decide) (cellOk_no_nl hcell)
  | map es =>
    cases es with
    | nil =>
      simp only [emitEntry, List.mem_singleton] at hl
      subst hl
      exact append_no_nl (keySafe_no_nl hk) (by decide)
    | cons e t0 =>
      simp only [emitEntry, List.mem_cons] at hl
      rcases hl with hl | hl
      · subst hl
        exact append_no_nl (keySafe_no_nl hk) (by decide)
      · rw [List.mem_flatMap] at hl
        obtain ⟨p, hp, hl2⟩ := hl
        have h2 : (keySafe p.1 && cellsOkFl p.2) = true := by
          have h3 : (e :: t0).all (fun p => keySafe p.1 && cellsOkFl p.2) = true := hv
          exact (List.all_eq_true.1 h3) p hp
        rw [Bool.and_eq_true] at h2
        exact emitFl_no_nl h2.1 h2.2 l hl2

theorem emitYamlLines_no_nl {m : YMap} (hm : mapOk m = true) :
    ∀ l ∈ emitYamlLines m, ∀ ch ∈ l, (ch == '\n') = false := by
  intro l hl
  rw [emitYamlLines, List.mem_flatMap] at hl
  obtain ⟨e, he, hl2⟩ := hl
  have h2 : (keySafe e.1 && cellsOk e.2) = true := (List.all_eq_true.1 hm) e he
  rw [Bool.and_eq_true] at h2
  exact emitEntry_no_nl h2.1 h2.2 l hl2

/-- The head line of every emitted top-level entry starts with its key. -/
theorem emitEntry_head_key (k : Str) (v : Yv) :
    ∃ z, (emitEntry k v).head? = some (k ++ z) := by
  cases v with
  | sc sc => exact ⟨str ": " ++ emitSc sc, by simp [emitEntry]⟩
  | list vs =>
    cases vs with
    | nil => exact ⟨str ": []", by simp [emitEntry]⟩
    | cons v0 t0 => exact ⟨str ":", by simp [emitEntry]⟩
  | map es =>
    cases es with
    | nil => exact ⟨str ": \x7b\x7d", by simp [emitEntry]⟩
    | cons e t0 => exact ⟨str ":", by simp [emitEntry]⟩

/-- A line that is safe to sit at either end of the trimmed YAML block:
non-empty, and not ending in whitespace. -/
def lineTrimSafe (l : Str) : Prop :=
  l ≠ [] ∧ ∀ d, l.getLast? = some d → isWs d = false

theorem lineTrimSafe_of_last {l : Str} {d : Char} (h : l.getLast? = some d)
    (hd : isWs d = false) : lineTrimSafe l := by
  constructor
  · intro hz
    rw [hz] at h
    simp at h
  · intro d2 hd2
    rw [h] at hd2
    cases hd2
    exact hd

theorem lineTrimSafe_append_cell {a : Str} {v : Ysc} (h : cellOk v = true) :
    lineTrimSafe (a ++ emitSc v) := by
  have hne := cellOk_ne_nil h
  constructor
  · simp [hne]
  · intro d hd
    rw [List.getLast?_append_of_ne_nil _ hne] at hd
    exact cellOk_last_ws h d hd

theorem getLast?_mem' {α : Type} : ∀ {l : List α} {a : α},
    l.getLast? = some a → a ∈ l := by
  intro l
  induction l with
  | nil => intro a h; simp at h
  | cons x xs ih =>
    intro a h
    cases xs with
    | nil =>
      have : x = a := by simpa using h
      simp [this]
    | cons y ys =>
      rw [List.getLast?_cons_cons] at h
      exact List.mem_cons_of_mem x (ih h)

theorem getLast?_map' {α β : Type} (f : α → β) : ∀ (l : List α),
    (l.map f).getLast? = l.getLast?.map f := by
  intro l
  induction l with
  | nil => rfl
  | cons x xs ih =>
    cases xs with
    | nil => rfl
    | cons y ys =>
      have h1 : (f x :: (y :: ys).map f).getLast? = ((y :: ys).map f).getLast? := by
        rw [List.map_cons, List.getLast?_cons_cons]
      rw [List.map_cons, h1, ih, List.getLast?_cons_cons]

theorem emitFl_ne_nil (k : Str) (v : Yfl) : emitFl k v ≠ [] := by
  cases v with
  | sc sc => simp [emitFl]
  | list vs => cases vs <;> simp [emitFl]

theorem emitFl_getLast {k : Str} {fl : Yfl} (hfl : cellsOkFl fl = true) :
    ∃ l, (emitFl k fl).getLast? = some l ∧ lineTrimSafe l := by
  cases fl with
  | sc sc =>
    refine ⟨str "  " ++ k ++ str ": " ++ emitSc sc, by simp [emitFl], ?_⟩
    exact lineTrimSafe_append_cell hfl
  | list vs =>
    cases vs with
    | nil =>
      refine ⟨str "  " ++ k ++ str ": []", by simp [emitFl], ?_⟩
      have hlast : (str "  " ++ k ++ str ": []").getLast? = some ']' := by
        rw [List.getLast?_append_of_ne_nil _ (by decide : str ": []" ≠ [])]
        decide
      exact lineTrimSafe_of_last hlast (by decide)
    | cons v0 t0 =>
      obtain ⟨sc, hsc⟩ : ∃ sc, (v0 :: t0).getLast? = some sc := by
        cases t0 with
        | nil => exact ⟨v0, rfl⟩
        | cons w ws =>
          cases hx : (v0 :: w :: ws).getLast? with
          | none => simp at hx
          | some sc => exact ⟨sc, rfl⟩
      have hcell : cellOk sc = true := by
        have h2 : (v0 :: t0).all cellOk = true := hfl
        exact (List.all_eq_true.1 h2) sc (getLast?_mem' hsc)
      refine ⟨str "    - " ++ emitSc sc, ?_, lineTrimSafe_append_cell hcell⟩
      rw [emitFl]
      have hmap : ((v0 :: t0).map (fun s2 => str "    - " ++ emitSc s2)).getLast?
          = some (str "    - " ++ emitSc sc) := by
        rw [getLast?_map', hsc]
        rfl
      rw [show ((str "  " ++ k ++ str ":")
          :: (v0 :: t0).map (fun s2 => str "    - " ++ emitSc s2))
          = [str "  " ++ k ++ str ":"]
            ++ (v0 :: t0).map (fun s2 => str "    - " ++ emitSc s2) from rfl]
      rw [List.getLast?_append_of_ne_nil _ (by simp), hmap]

theorem flatMap_emitFl_ne_nil (es : List (Str × Yfl)) (hne : es ≠ []) :
    es.flatMap (fun p => emitFl p.1 p.2) ≠ [] := by
  cases es with
  | nil => exact absurd rfl hne
  | cons e t =>
    rw [List.flatMap_cons]
    intro hz
    rw [List.append_eq_nil] at hz
    exact emitFl_ne_nil e.1 e.2 hz.1

theorem flatMap_emitFl_getLast (es : List (Str × Yfl)) (hne : es ≠ [])
    (h : es.all (fun p => keySafe p.1 && cellsOkFl p.2) = true) :
    ∃ l, (es.flatMap (fun p => emitFl p.1 p.2)).getLast? = some l
      ∧ lineTrimSafe l := by
  induction es with
  | nil => exact absurd rfl hne
  | cons e t ih =>
    have hfl : cellsOkFl e.2 = true := by
      have h2 := (List.all_eq_true.1 h) e (by simp)
      rw [Bool.and_eq_true] at h2
      exact h2.2
    cases t with
    | nil =>
      obtain ⟨l, hl, hsafe⟩ := emitFl_getLast (k := e.1) hfl
      refine ⟨l, ?_, hsafe⟩
      rw [List.flatMap_cons, List.flatMap_nil, List.append_nil]
      exact hl
    | cons f rest =>
      have ht : (f :: rest).all (fun p => keySafe p.1 && cellsOkFl p.2) = true := by
        rw [List.all_eq_true] at h ⊢
        exact fun x hx => h x (by simp [hx])
      obtain ⟨l, hl, hsafe⟩ := ih (by simp) ht
      refine ⟨l, ?_, hsafe⟩
      rw [List.flatMap_cons,
        List.getLast?_append_of_ne_nil _ (flatMap_emitFl_ne_nil _ (by simp))]
      exact hl

theorem emitEntry_getLast {k : Str} {v : Yv} (hv : cellsOk v = true) :
    ∃ l, (emitEntry k v).getLast? = some l ∧ lineTrimSafe l := by
  cases v with
  | sc sc =>
    exact ⟨k ++ str ": " ++ emitSc sc, by simp [emitEntry],
      lineTrimSafe_append_cell hv⟩
  | list vs =>
    cases vs with
    | nil =>
      refine ⟨k ++ str ": []", by simp [emitEntry], ?_⟩
      have hlast : (k ++ str ": []").getLast? = some ']' := by
        rw [List.getLast?_append_of_ne_nil _ (by decide : str ": []" ≠ [])]
        decide
      exact lineTrimSafe_of_last hlast (by decide)
    | cons v0 t0 =>
      obtain ⟨sc, hsc⟩ : ∃ sc, (v0 :: t0).getLast? = some sc := by
        cases t0 with
        | nil => exact ⟨v0, rfl⟩
        | cons w ws =>
          cases hx : (v0 :: w :: ws).getLast? with
          | none => simp at hx
          | some sc => exact ⟨sc, rfl⟩
      have hcell : cellOk sc = true := by
        have h2 : (v0 :: t0).all cellOk = true := hv
        exact (List.all_eq_true.1 h2) sc (getLast?_mem' hsc)
      refine ⟨str "  - " ++ emitSc sc, ?_, lineTrimSafe_append_cell hcell⟩
      rw [emitEntry]
      have hmap : ((v0 :: t0).map (fun s2 => str "  - " ++ emitSc s2)).getLast?
          = some (str "  - " ++ emitSc sc) := by
        rw [getLast?_map', hsc]
        rfl
      rw [show ((k ++ str ":")
          :: (v0 :: t0).map (fun s2 => str "  - " ++ emitSc s2))
          = [k ++ str ":"]
            ++ (v0 :: t0).map (fun s2 => str "  - " ++ emitSc s2) from rfl]
      rw [List.getLast?_append_of_ne_nil _ (by simp), hmap]
  | map es =>
    cases es with
    | nil =>
      refine ⟨k ++ str ": \x7b\x7d", by simp [emitEntry], ?_⟩
      have hlast : (k ++ str ": \x7b\x7d").getLast? = some '\x7d' := by
        rw [List.getLast?_append_of_ne_nil _
          (by decide : str ": \x7b\x7d" ≠ [])]
        decide
      exact lineTrimSafe_of_last hlast (by decide)
    | cons e t0 =>
      obtain ⟨l, hl, hsafe⟩ := flatMap_emitFl_getLast (e :: t0) (by simp) hv
      refine ⟨l, ?_, hsafe⟩
      rw [emitEntry]
      rw [show ((k ++ str ":") :: (e :: t0).flatMap (fun p => emitFl p.1 p.2))
          = [k ++ str ":"] ++ (e :: t0).flatMap (fun p => emitFl p.1 p.2) from rfl]
      rw [List.getLast?_append_of_ne_nil _ (flatMap_emitFl_ne_nil _ (by simp))]
      exact hl

theorem flatMap_emitEntry_ne_nil (m : YMap) (hne : m ≠ []) :
    m.flatMap (fun p => emitEntry p.1 p.2) ≠ [] := by
  cases m with
  | nil => exact absurd rfl hne
  | cons e t =>
    rw [List.flatMap_cons]
    intro hz
    rw [List.append_eq_nil] at hz
    exact emitEntry_ne_nil e.1 e.2 hz.1

theorem emitYamlLines_getLast (m : YMap) (hne : m ≠ []) (hm : mapOk m = true) :
    ∃ l, (emitYamlLines m).getLast? = some l ∧ lineTrimSafe l := by
  induction m with
  | nil => exact absurd rfl hne
  | cons e t ih =>
    have hv : cellsOk e.2 = true := by
      have h2 := (List.all_eq_true.1 hm) e (by simp)
      rw [Bool.and_eq_true] at h2
      exact h2.2
    cases t with
    | nil =>
      obtain ⟨l, hl, hsafe⟩ := emitEntry_getLast (k := e.1) hv
      refine ⟨l, ?_, hsafe⟩
      rw [emitYamlLines, List.flatMap_cons, List.flatMap_nil, List.append_nil]
      exact hl
    | cons f rest =>
      have ht : mapOk (f :: rest) = true := by
        rw [mapOk, List.all_eq_true] at hm ⊢
        exact fun x hx => hm x (by simp [hx])
      obtain ⟨l, hl, hsafe⟩ := ih (by simp) ht
      refine ⟨l, ?_, hsafe⟩
      rw [emitYamlLines, List.flatMap_cons,
        List.getLast?_append_of_ne_nil _ (flatMap_emitEntry_ne_nil _ (by simp))]
      exact hl

/-- Every emitted line either is indented (nested entry or block item) or
starts with the entry's key. -/
theorem emitEntry_shape (k : Str) (v : Yv) :
    ∀ l ∈ emitEntry k v, leadMatch (str "  ") l = true ∨ ∃ z, l = k ++ z := by
  intro l hl
  cases v with
  | sc sc =>
    simp only [emitEntry, List.mem_singleton] at hl
    exact Or.inr ⟨str ": " ++ emitSc sc, by simp [hl]⟩
  | list vs =>
    cases vs with
    | nil =>
      simp only [emitEntry, List.mem_singleton] at hl
      exact Or.inr ⟨str ": []", hl⟩
    | cons v0 t0 =>
      simp only [emitEntry, List.mem_cons] at hl
      rcases hl with hl | hl
      · exact Or.inr ⟨str ":", hl⟩
      · rw [List.mem_map] at hl
        obtain ⟨sc, _, rfl⟩ := hl
        refine Or.inl ?_
        rw [show str "  - " ++ emitSc sc
            = str "  " ++ (str "- " ++ emitSc sc) from by simp [str]]
        exact leadMatch_self_append _ _
  | map es =>
    cases es with
    | nil =>
      simp only [emitEntry, List.mem_singleton] at hl
      exact Or.inr ⟨str ": \x7b\x7d", hl⟩
    | cons e t0 =>
      simp only [emitEntry, List.mem_cons] at hl
      rcases hl with hl | hl
      · exact Or.inr ⟨str ":", hl⟩
      · rw [List.mem_flatMap] at hl
        obtain ⟨p, _, hl2⟩ := hl
        exact Or.inl (emitFl_all_two p.1 p.2 l hl2)

/-- No emitted YAML line can be mistaken for the closing `---` delimiter. -/
theorem emit_lines_ne_dash {m : YMap} (hm : mapOk m = true) :
    ∀ l ∈ emitYamlLines m, (l == str "---") = false := by
  intro l hl
  rw [emitYamlLines, List.mem_flatMap] at hl
  obtain ⟨e, he, hl2⟩ := hl
  have hk : keySafe e.1 = true := by
    have h2 := (List.all_eq_true.1 hm) e he
    rw [Bool.and_eq_true] at h2
    exact h2.1
  rcases emitEntry_shape e.1 e.2 l hl2 with h | ⟨z, rfl⟩
  · cases hb : l == str "---" with
    | false => rfl
    | true =>
      have hEq : l = str "---" := by simpa using hb
      rw [hEq] at h
      exact absurd h (by decide)
  · obtain ⟨c, r, hcr, hws, hsp⟩ := keySafe_cons hk
    cases hb : (e.1 ++ z) == str "---" with
    | false => rfl
    | true =>
      have hEq : e.1 ++ z = str "---" := by simpa using hb
      rw [hcr] at hEq
      have hc : c = '-' := by
        have h2 := congrArg List.head? hEq
        simpa [str] using h2
      rw [hc] at hsp
      exact absurd hsp (by decide)

/-- The `yaml` emitter's output carries no leading or trailing whitespace, so
the `.trim()` in `serializeFrontmatter` is the identity on it. -/
theorem trim_emitYaml (m : YMap) (hm : mapOk m = true) :
    trim (joinCh '\n' (emitYamlLines m)) = joinCh '\n' (emitYamlLines m) := by
  cases m with
  | nil => rfl
  | cons e t =>
    have hk : keySafe e.1 = true := by
      have h2 := (List.all_eq_true.1 hm) e (by simp)
      rw [Bool.and_eq_true] at h2
      exact h2.1
    obtain ⟨c, r, hcr, hws, hsp⟩ := keySafe_cons hk
    obtain ⟨z, hhead⟩ := emitEntry_head_key e.1 e.2
    obtain ⟨l0, ls, hL⟩ : ∃ l0 ls, emitYamlLines (e :: t) = l0 :: ls := by
      cases hx : emitYamlLines (e :: t) with
      | nil => exact absurd hx (flatMap_emitEntry_ne_nil _ (by simp))
      | cons l0 ls => exact ⟨l0, ls, rfl⟩
    have hl0 : l0 = e.1 ++ z := by
      have h2 : (emitYamlLines (e :: t)).head? = some l0 := by rw [hL]; rfl
      rw [emitYamlLines, List.flatMap_cons] at h2
      cases hfe : emitEntry e.1 e.2 with
      | nil => exact absurd hfe (emitEntry_ne_nil e.1 e.2)
      | cons x xs =>
        rw [hfe] at h2
        rw [hfe] at hhead
        simp only [List.cons_append, List.head?_cons, Option.some.injEq] at h2 hhead
        rw [← h2, ← hhead]
    obtain ⟨llast, hlast, hlne, hlws⟩ :
        ∃ l2, (emitYamlLines (e :: t)).getLast? = some l2 ∧ l2 ≠ []
          ∧ ∀ d, l2.getLast? = some d → isWs d = false := by
      obtain ⟨l2, h2, h3, h4⟩ := emitYamlLines_getLast (e :: t) (by simp) hm
      exact ⟨l2, h2, h3, h4⟩
    apply trim_of_head_last
    · intro c2 hc2
      rw [hL, joinCh_head_ne _ _ _ (by rw [hl0, hcr]; simp)] at hc2
      rw [hl0, hcr] at hc2
      simp only [List.cons_append, List.head?_cons, Option.some.injEq] at hc2
      rw [← hc2]
      exact hws
    · intro d hd
      rw [hL] at hlast
      rw [hL, joinCh_getLast '\n' (l0 :: ls) llast hlast hlne] at hd
      exact hlws d hd

/-- Splitting the joined YAML text recovers exactly the emitted lines (with a
single empty line when the mapping is empty). -/
theorem splitNl_joinCh_emit (m : YMap) (hm : mapOk m = true) (hne : m ≠ []) :
    splitNl (joinCh '\n' (emitYamlLines m)) = emitYamlLines m := by
  obtain ⟨l0, ls, hL⟩ : ∃ l0 ls, emitYamlLines m = l0 :: ls := by
    cases hx : emitYamlLines m with
    | nil => exact absurd hx (flatMap_emitEntry_ne_nil _ hne)
    | cons l0 ls => exact ⟨l0, ls, rfl⟩
  rw [hL, splitNl, splitCh_joinCh, flatMap_splitCh_id]
  intro l hl
  exact emitYamlLines_no_nl hm l (hL ▸ hl)

theorem parseTop_splitNl_emit (m : YMap) (hm : mapOk m = true) :
    parseTop (splitNl (joinCh '\n' (emitYamlLines m))) = some (revalMap m) := by
  cases m with
  | nil =>
    have h0 : splitNl (joinCh '\n' (emitYamlLines ([] : YMap))) = [([] : Str)] := rfl
    rw [h0, parseTop.eq_def]
    simp [parseTop.eq_def, revalMap]
  | cons e t =>
    rw [splitNl_joinCh_emit (e :: t) hm (by simp)]
    exact parseTop_emit (e :: t) hm

theorem splitNl_emit_ne_dash (m : YMap) (hm : mapOk m = true) :
    ∀ l ∈ splitNl (joinCh '\n' (emitYamlLines m)),
      (!(l == str "---")) = true := by
  cases m with
  | nil =>
    intro l hl
    have h0 : splitNl (joinCh '\n' (emitYamlLines ([] : YMap))) = [([] : Str)] := rfl
    rw [h0] at hl
    simp only [List.mem_singleton] at hl
    subst hl
    decide
  | cons e t =>
    intro l hl
    rw [splitNl_joinCh_emit (e :: t) hm (by simp)] at hl
    rw [emit_lines_ne_dash hm l hl]
    rfl

/-- gray-matter on a serialized document: the metadata comes back through one
emit/parse cycle, and the content is the body padded by the serializer's
blank line and trailing newline. -/
theorem matter_serialize (m : YMap) (body : Str) (hm : mapOk m = true) :
    matter (serializeFrontmatter m body)
      = .ok (revalMap m, '\n' :: (body ++ ['\n'])) := by
  have hser : serializeFrontmatter m body
      = str "---\n"
        ++ (joinCh '\n' (emitYamlLines m)
            ++ '\n' :: (str "---" ++ '\n' :: ('\n' :: (body ++ ['\n'])))) := by
    rw [serializeFrontmatter, trim_emitYaml m hm]
    simp [str]
  have hlm : leadMatch (str "---\n") (serializeFrontmatter m body) = true := by
    rw [hser]
    exact leadMatch_self_append _ _
  have hdrop4 : (serializeFrontmatter m body).drop 4
      = joinCh '\n' (emitYamlLines m)
        ++ '\n' :: (str "---" ++ '\n' :: ('\n' :: (body ++ ['\n']))) := by
    rw [hser]
    have h4 : (str "---\n").length = 4 := by decide
    rw [← h4, List.drop_left]
  have hC : splitCh '\n' ('\n' :: (body ++ ['\n']))
      = [] :: splitCh '\n' (body ++ ['\n']) := by
    rw [splitCh]
    simp
  have hsplit : splitNl ((serializeFrontmatter m body).drop 4)
      = splitNl (joinCh '\n' (emitYamlLines m))
        ++ (str "---" :: ([] :: splitNl (body ++ ['\n']))) := by
    rw [hdrop4, splitNl, splitCh_append_cons, splitCh_append_cons, hC]
    rw [show splitCh '\n' (str "---") = [str "---"] from by decide]
    simp [splitNl]
  have htw : List.takeWhile (fun l => !(l == str "---"))
      (splitNl (joinCh '\n' (emitYamlLines m))
        ++ (str "---" :: ([] :: splitNl (body ++ ['\n']))))
      = splitNl (joinCh '\n' (emitYamlLines m)) := by
    rw [takeWhile_append_all _ (splitNl_emit_ne_dash m hm), List.takeWhile_cons]
    simp
  have hdw : List.dropWhile (fun l => !(l == str "---"))
      (splitNl (joinCh '\n' (emitYamlLines m))
        ++ (str "---" :: ([] :: splitNl (body ++ ['\n']))))
      = str "---" :: ([] :: splitNl (body ++ ['\n'])) := by
    rw [dropWhile_append_all _ (splitNl_emit_ne_dash m hm), List.dropWhile_cons]
    simp
  have hjoin : joinCh '\n' ([] :: splitNl (body ++ ['\n']))
      = '\n' :: (body ++ ['\n']) := by
    obtain ⟨u, us, hu⟩ : ∃ u us, splitNl (body ++ ['\n']) = u :: us := by
      cases hx : splitNl (body ++ ['\n']) with
      | nil => exact absurd hx (splitCh_ne_nil '\n' _)
      | cons u us => exact ⟨u, us, rfl⟩
    rw [hu, joinCh]
    have h2 : joinCh '\n' (u :: us) = body ++ ['\n'] := by
      rw [← hu]
      exact joinCh_splitCh '\n' (body ++ ['\n'])
    rw [h2]
    rfl
  rw [matter, if_pos hlm]
  simp only [hsplit, htw, hdw, parseTop_splitNl_emit m hm, hjoin]

/-- `parseFrontmatter` on a serialized document. -/
theorem parseFrontmatter_serialize (m : YMap) (body : Str)
    (hm : mapOk m = true) :
    parseFrontmatter (serializeFrontmatter m body)
      = .ok ⟨revalMap m, trim body, serializeFrontmatter m body⟩ := by
  rw [parseFrontmatter, matter_serialize m body hm]
  have ht : trim ('\n' :: (body ++ ['\n'])) = trim body := by
    rw [trim_ws_cons (by decide), trim_append_ws (by decide)]
  simp [ht]

/-! ## C3: behaviour on input without a leading frontmatter delimiter -/

/-- C3 counterexample: on an input with no leading `---` block, the parse does
not fail — gray-matter returns empty metadata and the whole input as content,
and `parseFrontmatter` passes that through as a success. -/
theorem C3_counterexample :
    parseFrontmatter (str "hello")
      = .ok ⟨[], str "hello", str "hello"⟩ := by
  rw [parseFrontmatter, matter, if_neg (by decide)]
  simp [show trim (str "hello") = str "hello" from by decide]

/-- C3 (corrected): for every input whose leading `---\n` delimiter is absent,
`parseFrontmatter` succeeds with empty metadata and the trimmed input as
content (no `MalformedFrontmatter` error exists in the code); the failure the
pipeline does produce for such input only arises later, in kind-specific
validation — `parseDaily` rejects it with a missing-`date` field error. -/
theorem C3_no_delimiter_spec (s : Str)
    (h : leadMatch (str "---\n") s = false) :
    parseFrontmatter s = .ok ⟨[], trim s, s⟩
      ∧ parseDaily s = .error (.missingField (str "date")) := by
  have h1 : parseFrontmatter s = .ok ⟨[], trim s, s⟩ := by
    rw [parseFrontmatter, matter, if_neg (by simp [h])]
  refine ⟨h1, ?_⟩
  rw [parseDaily, h1]
  rfl

/-- C3 witness: the corrected statement at a concrete delimiter-free input. -/
theorem C3_witness :
    leadMatch (str "---\n") (str "# 今日工作\n- 修复解析器") = false
    ∧ (parseFrontmatter (str "# 今日工作\n- 修复解析器")
        = .ok ⟨[], str "# 今日工作\n- 修复解析器", str "# 今日工作\n- 修复解析器"⟩
      ∧ parseDaily (str "# 今日工作\n- 修复解析器")
          = .error (.missingField (str "date"))) := by
  refine ⟨by decide, ?_⟩
  have h := C3_no_delimiter_spec (str "# 今日工作\n- 修复解析器") (by decide)
  rwa [show trim (str "# 今日工作\n- 修复解析器")
    = str "# 今日工作\n- 修复解析器" from by decide] at h

/-! ## C4: round-trip of validated metadata -/

theorem dateRegex_length {t : Str} (h : dateRegex t = true) : t.length = 10 := by
  rcases t with _ | ⟨a, _ | ⟨b, _ | ⟨c, _ | ⟨d, _ | ⟨e, _ | ⟨f, _ | ⟨g, _ |
    ⟨h2, _ | ⟨i, _ | ⟨j, _ | ⟨k, rest⟩⟩⟩⟩⟩⟩⟩⟩⟩⟩⟩ <;>
      simp only [dateRegex, Bool.false_eq_true] at h
  rfl

theorem contains_ne_len {t : Str} {lits : List Str}
    (h : ∀ l ∈ lits, ¬ l.length = t.length) : lits.contains t = false := by
  cases hb : lits.contains t with
  | false => rfl
  | true =>
    have hmem : t ∈ lits := by simpa using hb
    exact absurd rfl (h t hmem)

/-- A value-safe scalar field comes back unchanged from one emit/parse cycle. -/
theorem revalSc_of_safe {t : Str} (h : scalarSafe t = true) :
    revalSc (.s t) = .s t := by
  rw [revalSc, show emitSc (Ysc.s t) = emitScalar t from rfl]
  simpa [scalarSafe] using h

theorem map_revalSc_s {xs : List Str} (h : ∀ x ∈ xs, scalarSafe x = true) :
    (xs.map Ysc.s).map revalSc = xs.map Ysc.s := by
  induction xs with
  | nil => rfl
  | cons x t ih =>
    rw [List.map_cons, List.map_cons, revalSc_of_safe (h x (by simp)),
      ih (fun y hy => h y (by simp [hy]))]

/-- A `yyyy-MM-dd` scalar the emitter writes plain comes back from js-yaml as
a JS `Date` (carried as its rendering). -/
theorem revalSc_date {t : Str} (hd : dateRegex t = true)
    (hq : needsQuote t = false) : revalSc (.s t) = .date t := by
  rw [revalSc, show emitSc (Ysc.s t) = emitScalar t from rfl, emitScalar,
    if_neg (by simp [hq])]
  obtain ⟨c, r, hcr⟩ : ∃ c r, t = c :: r := by
    cases t with
    | nil => exact absurd hq (by decide)
    | cons c r => exact ⟨c, r, rfl⟩
  have hsp := nq_head_special (hcr ▸ hq)
  have hc : (c == '"') = false := by
    cases hb : c == '"' with
    | false => rfl
    | true =>
      have he : c = '"' := by simpa using hb
      subst he
      exact absurd hsp (by decide)
  have hlen : t.length = 10 := dateRegex_length hd
  have ht : trueLits.contains t = false := by
    refine contains_ne_len ?_
    intro l hl he
    rw [hlen] at he
    simp only [trueLits, List.mem_cons, List.not_mem_nil, or_false] at hl
    rcases hl with rfl|rfl|rfl|rfl|rfl|rfl|rfl|rfl|rfl <;> simp [str] at he
  have hf : falseLits.contains t = false := by
    refine contains_ne_len ?_
    intro l hl he
    rw [hlen] at he
    simp only [falseLits, List.mem_cons, List.not_mem_nil, or_false] at hl
    rcases hl with rfl|rfl|rfl|rfl|rfl|rfl|rfl|rfl|rfl <;> simp [str] at he
  rw [hcr, parseScalarY, hc]
  simp only [Bool.false_eq_true, if_false]
  rw [plainScalar, ← hcr, ht, hf]
  simp only [Bool.false_eq_true, if_false]
  rw [if_pos hd]

theorem dateRegex_ne_nil {t : Str} (h : dateRegex t = true) :
    t.isEmpty = false := by
  cases t with
  | nil => exact absurd h (by decide)
  | cons c r => rfl

/-- Canonical daily frontmatter, in the template's field order, as validation
leaves it. -/
def dailyMeta (d w : Str) (ps tg : List Str) (hl : Bool) : YMap :=
  [(str "date", Yv.sc (.s d)),
   (str "type", Yv.sc (.s (str "daily"))),
   (str "week", Yv.sc (.s w)),
   (str "projects", Yv.list (ps.map Ysc.s)),
   (str "tags", Yv.list (tg.map Ysc.s)),
   (str "weekly_highlight", Yv.sc (.b hl)),
   (str "github", Yv.map [(str "issues", Yfl.list []), (str "prs", Yfl.list [])])]

/-- Canonical weekly frontmatter as validation leaves it. -/
def weeklyMeta2 (wk sd ed : Str) (ps : List Str) : YMap :=
  [(str "week", Yv.sc (.s wk)),
   (str "type", Yv.sc (.s (str "weekly"))),
   (str "start_date", Yv.sc (.s sd)),
   (str "end_date", Yv.sc (.s ed)),
   (str "projects", Yv.list (ps.map Ysc.s))]

/-- Canonical project frontmatter as validation leaves it. -/
def projectMeta (nm gr ty st sd ed : Str) : YMap :=
  [(str "project", Yv.map
    [(str "name", Yfl.sc (.s nm)),
     (str "github_repo", Yfl.sc (.s gr)),
     (str "type", Yfl.sc (.s ty)),
     (str "status", Yfl.sc (.s st)),
     (str "start_date", Yfl.sc (.s sd)),
     (str "end_date", Yfl.sc (.s ed))])]

theorem all_cellOk_map_s (xs : List Str) : (xs.map Ysc.s).all cellOk = true := by
  rw [List.all_eq_true]
  intro v hv
  rw [List.mem_map] at hv
  obtain ⟨x, _, rfl⟩ := hv
  exact cellOk_s x

theorem mapOk_dailyMeta (d w : Str) (ps tg : List Str) (hl : Bool) :
    mapOk (dailyMeta d w ps tg hl) = true := by
  refine List.all_eq_true.2 ?_
  intro p hp
  simp only [dailyMeta, List.mem_cons, List.not_mem_nil, or_false] at hp
  rcases hp with rfl | rfl | rfl | rfl | rfl | rfl | rfl
  · show (keySafe (str "date") && cellsOk (Yv.sc (.s d))) = true
    exact (Bool.and_eq_true _ _).mpr ⟨by decide, cellOk_s d⟩
  · show (keySafe (str "type") && cellsOk (Yv.sc (.s (str "daily")))) = true
    decide
  · show (keySafe (str "week") && cellsOk (Yv.sc (.s w))) = true
    exact (Bool.and_eq_true _ _).mpr ⟨by decide, cellOk_s w⟩
  · show (keySafe (str "projects") && cellsOk (Yv.list (ps.map Ysc.s))) = true
    exact (Bool.and_eq_true _ _).mpr ⟨by decide, all_cellOk_map_s ps⟩
  · show (keySafe (str "tags") && cellsOk (Yv.list (tg.map Ysc.s))) = true
    exact (Bool.and_eq_true _ _).mpr ⟨by decide, all_cellOk_map_s tg⟩
  · show (keySafe (str "weekly_highlight") && cellsOk (Yv.sc (.b hl))) = true
    exact (Bool.and_eq_true _ _).mpr ⟨by decide, cellOk_b hl⟩
  · show (keySafe (str "github") && cellsOk (Yv.map
      [(str "issues", Yfl.list []), (str "prs", Yfl.list [])])) = true
    decide

theorem mapOk_weeklyMeta2 (wk sd ed : Str) (ps : List Str) :
    mapOk (weeklyMeta2 wk sd ed ps) = true := by
  refine List.all_eq_true.2 ?_
  intro p hp
  simp only [weeklyMeta2, List.mem_cons, List.not_mem_nil, or_false] at hp
  rcases hp with rfl | rfl | rfl | rfl | rfl
  · show (keySafe (str "week") && cellsOk (Yv.sc (.s wk))) = true
    exact (Bool.and_eq_true _ _).mpr ⟨by decide, cellOk_s wk⟩
  · show (keySafe (str "type") && cellsOk (Yv.sc (.s (str "weekly")))) = true
    decide
  · show (keySafe (str "start_date") && cellsOk (Yv.sc (.s sd))) = true
    exact (Bool.and_eq_true _ _).mpr ⟨by decide, cellOk_s sd⟩
  · show (keySafe (str "end_date") && cellsOk (Yv.sc (.s ed))) = true
    exact (Bool.and_eq_true _ _).mpr ⟨by decide, cellOk_s ed⟩
  · show (keySafe (str "projects") && cellsOk (Yv.list (ps.map Ysc.s))) = true
    exact (Bool.and_eq_true _ _).mpr ⟨by decide, all_cellOk_map_s ps⟩

theorem mapOk_projectMeta (nm gr ty st sd ed : Str) :
    mapOk (projectMeta nm gr ty st sd ed) = true := by
  refine List.all_eq_true.2 ?_
  intro p hp
  simp only [projectMeta, List.mem_cons, List.not_mem_nil, or_false] at hp
  rcases hp with rfl
  show (keySafe (str "project") && cellsOk (Yv.map
    [(str "name", Yfl.sc (.s nm)),
     (str "github_repo", Yfl.sc (.s gr)),
     (str "type", Yfl.sc (.s ty)),
     (str "status", Yfl.sc (.s st)),
     (str "start_date", Yfl.sc (.s sd)),
     (str "end_date", Yfl.sc (.s ed))])) = true
  refine (Bool.and_eq_true _ _).mpr ⟨by decide, ?_⟩
  refine List.all_eq_true.2 ?_
  intro q hq
  simp only [List.mem_cons, List.not_mem_nil, or_false] at hq
  rcases hq with rfl | rfl | rfl | rfl | rfl | rfl
  · show (keySafe (str "name") && cellsOkFl (Yfl.sc (.s nm))) = true
    exact (Bool.and_eq_true _ _).mpr ⟨by decide, cellOk_s nm⟩
  · show (keySafe (str "github_repo") && cellsOkFl (Yfl.sc (.s gr))) = true
    exact (Bool.and_eq_true _ _).mpr ⟨by decide, cellOk_s gr⟩
  · show (keySafe (str "type") && cellsOkFl (Yfl.sc (.s ty))) = true
    exact (Bool.and_eq_true _ _).mpr ⟨by decide, cellOk_s ty⟩
  · show (keySafe (str "status") && cellsOkFl (Yfl.sc (.s st))) = true
    exact (Bool.and_eq_true _ _).mpr ⟨by decide, cellOk_s st⟩
  · show (keySafe (str "start_date") && cellsOkFl (Yfl.sc (.s sd))) = true
    exact (Bool.and_eq_true _ _).mpr ⟨by decide, cellOk_s sd⟩
  · show (keySafe (str "end_date") && cellsOkFl (Yfl.sc (.s ed))) = true
    exact (Bool.and_eq_true _ _).mpr ⟨by decide, cellOk_s ed⟩

theorem revalSc_b (b : Bool) : revalSc (.b b) = .b b := by cases b <;> decide

theorem revalMap_dailyMeta (d w : Str) (ps tg : List Str) (hl : Bool)
    (hd : dateRegex d = true) (hq : needsQuote d = false)
    (hw : scalarSafe w = true)
    (hps : ∀ x ∈ ps, scalarSafe x = true)
    (htg : ∀ x ∈ tg, scalarSafe x = true) :
    revalMap (dailyMeta d w ps tg hl)
      = [(str "date", Yv.sc (.date d)),
         (str "type", Yv.sc (.s (str "daily"))),
         (str "week", Yv.sc (.s w)),
         (str "projects", Yv.list (ps.map Ysc.s)),
         (str "tags", Yv.list (tg.map Ysc.s)),
         (str "weekly_highlight", Yv.sc (.b hl)),
         (str "github", Yv.map
           [(str "issues", Yfl.list []), (str "prs", Yfl.list [])])] := by
  simp only [revalMap, dailyMeta, List.map_cons, List.map_nil, revalV]
  rw [revalSc_date hd hq, revalSc_of_safe hw, map_revalSc_s hps,
    map_revalSc_s htg, revalSc_b,
    show revalSc (Ysc.s (str "daily")) = Ysc.s (str "daily") from by decide]
  simp [revalFl]

theorem revalMap_weeklyMeta2 (wk sd ed : Str) (ps : List Str)
    (hwk : scalarSafe wk = true)
    (hsd : dateRegex sd = true) (hsq : needsQuote sd = false)
    (hed : dateRegex ed = true) (heq2 : needsQuote ed = false)
    (hps : ∀ x ∈ ps, scalarSafe x = true) :
    revalMap (weeklyMeta2 wk sd ed ps)
      = [(str "week", Yv.sc (.s wk)),
         (str "type", Yv.sc (.s (str "weekly"))),
         (str "start_date", Yv.sc (.date sd)),
         (str "end_date", Yv.sc (.date ed)),
         (str "projects", Yv.list (ps.map Ysc.s))] := by
  simp only [revalMap, weeklyMeta2, List.map_cons, List.map_nil, revalV]
  rw [revalSc_of_safe hwk, revalSc_date hsd hsq, revalSc_date hed heq2,
    map_revalSc_s hps,
    show revalSc (Ysc.s (str "weekly")) = Ysc.s (str "weekly") from by decide]

theorem revalMap_projectMeta (nm gr ty st sd ed : Str)
    (hnm : scalarSafe nm = true) (hgr : scalarSafe gr = true)
    (hty : scalarSafe ty = true) (hst : scalarSafe st = true)
    (hsd : dateRegex sd = true) (hsq : needsQuote sd = false)
    (hed : dateRegex ed = true) (heq2 : needsQuote ed = false) :
    revalMap (projectMeta nm gr ty st sd ed)
      = [(str "project", Yv.map
          [(str "name", Yfl.sc (.s nm)),
           (str "github_repo", Yfl.sc (.s gr)),
           (str "type", Yfl.sc (.s ty)),
           (str "status", Yfl.sc (.s st)),
           (str "start_date", Yfl.sc (.date sd)),
           (str "end_date", Yfl.sc (.date ed))])] := by
  simp only [revalMap, projectMeta, List.map_cons, List.map_nil, revalV,
    revalFl]
  rw [revalSc_of_safe hnm, revalSc_of_safe hgr, revalSc_of_safe hty,
    revalSc_of_safe hst, revalSc_date hsd hsq, revalSc_date hed heq2]

theorem validateDaily_gen (d w : Str) (ps tg : List Str) (hl : Bool) (dv : Yv)
    (hnd : normalizeDate dv = .ok (Yv.sc (.s d)))
    (htr : truthy (some dv) = true) :
    validateDailyMeta
      ((str "date", dv)
        :: (str "type", Yv.sc (.s (str "daily")))
        :: (str "week", Yv.sc (.s w))
        :: (str "projects", Yv.list (ps.map Ysc.s))
        :: (str "tags", Yv.list (tg.map Ysc.s))
        :: (str "weekly_highlight", Yv.sc (.b hl))
        :: [(str "github", Yv.map
              [(str "issues", Yfl.list []), (str "prs", Yfl.list [])])])
      = .ok (dailyMeta d w ps tg hl) := by
  simp only [truthy] at htr
  cases w with
  | nil =>
    simp +decide [validateDailyMeta, dailyMeta, mget, mset, truthy, hnd, htr]
  | cons c0 w0 =>
    simp +decide [validateDailyMeta, dailyMeta, mget, mset, truthy, hnd, htr]

theorem validateWeekly_gen (wk sd ed : Str) (ps : List Str) (sdv edv : Yv)
    (hwk : wk.isEmpty = false)
    (hsd : normalizeDate sdv = .ok (Yv.sc (.s sd)))
    (hstt : truthy (some sdv) = true)
    (hed : normalizeDate edv = .ok (Yv.sc (.s ed)))
    (hett : truthy (some edv) = true) :
    validateWeeklyMeta
      ((str "week", Yv.sc (.s wk))
        :: (str "type", Yv.sc (.s (str "weekly")))
        :: (str "start_date", sdv)
        :: (str "end_date", edv)
        :: [(str "projects", Yv.list (ps.map Ysc.s))])
      = .ok (weeklyMeta2 wk sd ed ps) := by
  simp only [truthy] at hstt hett
  simp +decide [validateWeeklyMeta, weeklyMeta2, mget, mset, truthy, hsd,
    hstt, hed, hett, hwk]

theorem validateProject_gen (today nm gr ty st sd ed : Str) (sdv edv : Yfl)
    (hnm : nm.isEmpty = false) (hgr : gr.isEmpty = false)
    (hty : ty.isEmpty = false) (hst2 : st.isEmpty = false)
    (hsd : normalizeDateF sdv = .ok (Yfl.sc (.s sd)))
    (hstr : truthyF (some sdv) = true)
    (hed : normalizeDateF edv = .ok (Yfl.sc (.s ed)))
    (hetr : truthyF (some edv) = true) :
    validateProjectMeta today
      [(str "project", Yv.map
        [(str "name", Yfl.sc (.s nm)),
         (str "github_repo", Yfl.sc (.s gr)),
         (str "type", Yfl.sc (.s ty)),
         (str "status", Yfl.sc (.s st)),
         (str "start_date", sdv),
         (str "end_date", edv)])]
      = .ok (projectMeta nm gr ty st sd ed) := by
  simp only [truthyF] at hstr hetr
  simp +decide [validateProjectMeta, projectMeta, mget, mset, fget, fset,
    truthy, truthyF, hnm, hgr, hty, hst2, hsd, hstr, hed, hetr]

/-- C4 (corrected): the serialize/parse round trip holds for validated
metadata in the canonical shapes the three document kinds use, provided every
scalar field survives one emit/parse cycle (`scalarSafe`) and every date field
is a plain `yyyy-MM-dd` scalar: such metadata passes its kind-specific
validation, and parsing the serialized document returns the same metadata
(dates pass through a JS `Date` and are normalized back) together with the
trimmed body.  Without the value-safety proviso the round trip fails — see
the counterexample, where a date-like string inside `tags` is not
reproduced. -/
theorem C4_roundtrip_validated
    (d w wk sd ed : Str) (ps tg psw : List Str) (hl : Bool)
    (nm gr ty st psd ped today : Str)
    (bodyD bodyW bodyP : Str)
    (hd : dateRegex d = true) (hdq : needsQuote d = false)
    (hw : scalarSafe w = true)
    (hps : ∀ x ∈ ps, scalarSafe x = true)
    (htg : ∀ x ∈ tg, scalarSafe x = true)
    (hwk : scalarSafe wk = true) (hwkne : wk.isEmpty = false)
    (hsd : dateRegex sd = true) (hsq : needsQuote sd = false)
    (hed : dateRegex ed = true) (heq2 : needsQuote ed = false)
    (hpsw : ∀ x ∈ psw, scalarSafe x = true)
    (hnm : scalarSafe nm = true) (hnmne : nm.isEmpty = false)
    (hgr : scalarSafe gr = true) (hgrne : gr.isEmpty = false)
    (hty : scalarSafe ty = true) (htyne : ty.isEmpty = false)
    (hst : scalarSafe st = true) (hstne : st.isEmpty = false)
    (hpsd : dateRegex psd = true) (hpsq : needsQuote psd = false)
    (hped : dateRegex ped = true) (hpeq : needsQuote ped = false) :
    (validateDailyMeta (dailyMeta d w ps tg hl) = .ok (dailyMeta d w ps tg hl)
      ∧ parseDaily (serializeFrontmatter (dailyMeta d w ps tg hl) bodyD)
          = .ok (dailyMeta d w ps tg hl, trim bodyD))
    ∧ (validateWeeklyMeta (weeklyMeta2 wk sd ed psw)
          = .ok (weeklyMeta2 wk sd ed psw)
      ∧ parseWeekly (serializeFrontmatter (weeklyMeta2 wk sd ed psw) bodyW)
          = .ok (weeklyMeta2 wk sd ed psw, trim bodyW))
    ∧ (validateProjectMeta today (projectMeta nm gr ty st psd ped)
          = .ok (projectMeta nm gr ty st psd ped)
      ∧ parseProject today
            (serializeFrontmatter (projectMeta nm gr ty st psd ped) bodyP)
          = .ok (projectMeta nm gr ty st psd ped, trim bodyP)) := by
  have hvD0 : validateDailyMeta (dailyMeta d w ps tg hl)
      = .ok (dailyMeta d w ps tg hl) :=
    validateDaily_gen d w ps tg hl (Yv.sc (.s d)) rfl
      (by simp [truthy, dateRegex_ne_nil hd])
  have hvD : validateDailyMeta (revalMap (dailyMeta d w ps tg hl))
      = .ok (dailyMeta d w ps tg hl) := by
    rw [revalMap_dailyMeta d w ps tg hl hd hdq hw hps htg]
    exact validateDaily_gen d w ps tg hl (Yv.sc (.date d)) rfl rfl
  have hpD : parseDaily (serializeFrontmatter (dailyMeta d w ps tg hl) bodyD)
      = .ok (dailyMeta d w ps tg hl, trim bodyD) := by
    rw [parseDaily, parseFrontmatter_serialize _ _ (mapOk_dailyMeta d w ps tg hl)]
    simp [hvD]
  have hvW0 : validateWeeklyMeta (weeklyMeta2 wk sd ed psw)
      = .ok (weeklyMeta2 wk sd ed psw) :=
    validateWeekly_gen wk sd ed psw (Yv.sc (.s sd)) (Yv.sc (.s ed)) hwkne rfl
      (by simp [truthy, dateRegex_ne_nil hsd]) rfl
      (by simp [truthy, dateRegex_ne_nil hed])
  have hvW : validateWeeklyMeta (revalMap (weeklyMeta2 wk sd ed psw))
      = .ok (weeklyMeta2 wk sd ed psw) := by
    rw [revalMap_weeklyMeta2 wk sd ed psw hwk hsd hsq hed heq2 hpsw]
    exact validateWeekly_gen wk sd ed psw (Yv.sc (.date sd)) (Yv.sc (.date ed))
      hwkne rfl rfl rfl rfl
  have hpW : parseWeekly (serializeFrontmatter (weeklyMeta2 wk sd ed psw) bodyW)
      = .ok (weeklyMeta2 wk sd ed psw, trim bodyW) := by
    rw [parseWeekly, parseFrontmatter_serialize _ _ (mapOk_weeklyMeta2 wk sd ed psw)]
    simp [hvW]
  have hvP0 : validateProjectMeta today (projectMeta nm gr ty st psd ped)
      = .ok (projectMeta nm gr ty st psd ped) :=
    validateProject_gen today nm gr ty st psd ped
      (Yfl.sc (.s psd)) (Yfl.sc (.s ped)) hnmne hgrne htyne hstne rfl
      (by simp [truthyF, dateRegex_ne_nil hpsd]) rfl
      (by simp [truthyF, dateRegex_ne_nil hped])
  have hvP : validateProjectMeta today (revalMap (projectMeta nm gr ty st psd ped))
      = .ok (projectMeta nm gr ty st psd ped) := by
    rw [revalMap_projectMeta nm gr ty st psd ped hnm hgr hty hst hpsd hpsq
      hped hpeq]
    exact validateProject_gen today nm gr ty st psd ped
      (Yfl.sc (.date psd)) (Yfl.sc (.date ped)) hnmne hgrne htyne hstne
      rfl rfl rfl rfl
  have hpP : parseProject today
        (serializeFrontmatter (projectMeta nm gr ty st psd ped) bodyP)
      = .ok (projectMeta nm gr ty st psd ped, trim bodyP) := by
    rw [parseProject, parseFrontmatter_serialize _ _
      (mapOk_projectMeta nm gr ty st psd ped)]
    simp [hvP]
  exact ⟨⟨hvD0, hpD⟩, ⟨hvW0, hpW⟩, hvP0, hpP⟩

/-- A validated daily metadata whose `tags` list holds a date-like string. -/
def mBadTag : YMap :=
  dailyMeta (str "2026-01-12") (str "2026-W03") [] [str "2026-01-13"] false

/-- What actually comes back for `mBadTag`: the tag has turned into a JS
`Date` (js-yaml resolves the plain `2026-01-13` cell as a timestamp, and
daily validation only normalizes the `date` field, not `tags`). -/
def mBadTagParsed : YMap :=
  [(str "date", Yv.sc (.s (str "2026-01-12"))),
   (str "type", Yv.sc (.s (str "daily"))),
   (str "week", Yv.sc (.s (str "2026-W03"))),
   (str "projects", Yv.list []),
   (str "tags", Yv.list [Ysc.date (str "2026-01-13")]),
   (str "weekly_highlight", Yv.sc (.b false)),
   (str "github", Yv.map [(str "issues", Yfl.list []), (str "prs", Yfl.list [])])]

/-- C4 counterexample: `mBadTag` passes daily validation unchanged, yet
parsing its serialization does not reproduce the same metadata. -/
theorem C4_counterexample :
    validateDailyMeta mBadTag = .ok mBadTag
    ∧ parseDaily (serializeFrontmatter mBadTag (str "今日完成了解析器"))
        ≠ .ok (mBadTag, trim (str "今日完成了解析器")) := by
  refine ⟨rfl, ?_⟩
  have h1 : parseDaily (serializeFrontmatter mBadTag (str "今日完成了解析器"))
      = .ok (mBadTagParsed, trim (str "今日完成了解析器")) := by
    rw [parseDaily,
      parseFrontmatter_serialize _ _ (by decide : mapOk mBadTag = true)]
    rfl
  rw [h1]
  intro hx
  have h2 : mBadTagParsed = mBadTag := congrArg Prod.fst (Except.ok.inj hx)
  exact absurd h2 (by decide)

/-- C4 witness: the corrected round trip at concrete validated documents. -/
theorem C4_witness :
    dateRegex (str "2026-01-12") = true
    ∧ parseDaily (serializeFrontmatter
          (dailyMeta (str "2026-01-12") (str "2026-W03")
            [str "pwork-os"] [str "dev"] true)
          (str "# 今日\n完成解析"))
        = .ok (dailyMeta (str "2026-01-12") (str "2026-W03")
            [str "pwork-os"] [str "dev"] true,
          trim (str "# 今日\n完成解析")) :=
  ⟨by decide,
   ((C4_roundtrip_validated (str "2026-01-12") (str "2026-W03")
      (str "2026-W03") (str "2026-01-12") (str "2026-01-18")
      [str "pwork-os"] [str "dev"] [str "pwork-os"] true
      (str "pWork-OS") (str "blowinding/pWork-OS") (str "software")
      (str "Active") (str "2026-01-01") (str "2026-06-30") (str "2026-01-14")
      (str "# 今日\n完成解析") (str "周报正文") (str "项目说明")
      (by decide) (by decide) (by decide) (by decide) (by decide) (by decide)
      (by decide) (by decide) (by decide) (by decide) (by decide) (by decide)
      (by decide) (by decide) (by decide) (by decide) (by decide) (by decide)
      (by decide) (by decide) (by decide) (by decide) (by decide)
      (by decide)).1).2⟩
